import Mathlib

/-!
Verification of the DOCX template-filling subsystem of `resume_tailor`
(`templates/smart_filler.py` and `templates/docx_renderer.py`).

The Python code is shallowly embedded:

* Python `int` becomes `Int` for plan payloads (which are produced by an
  external generator and may be negative) and `Nat` for structure data;
* Python lists become `List`, `dict.get` becomes `Option`-valued lookup,
  and Python list indexing (including negative indices and `IndexError`)
  is modelled by `pyGet`;
* operations that can raise return `Except PyErr`;
* the float comparisons of cell ratios in `_is_header_row` (`> 0.3`,
  `>= 0.5`, `>= 0.6`) are embedded as exact rational comparisons by cross
  multiplication: for every row size occurring in a real document the
  float comparison and the exact one agree;
* run-level font bookkeeping (`_apply_font`) is outside the model, which
  tracks the text content of runs only: every claim under verification
  is about text, counts, errors, or control flow.
-/

/-- Python exceptions that the embedded code can raise. -/
inductive PyErr where
  | indexError
  | nameError
deriving DecidableEq

/-- Python whitespace recognised by `str.strip` and by `\s` in the
regexes below (ASCII portion; the embedded documents contain no exotic
Unicode whitespace). -/
def isPyWs (c : Char) : Bool :=
  c = ' ' || c = '\t' || c = '\n' || c = '\r' || c = Char.ofNat 11 || c = Char.ofNat 12

/-- `str.strip()` on a character list. -/
def pyStripList (cs : List Char) : List Char :=
  ((cs.dropWhile (fun c => isPyWs c)).reverse.dropWhile (fun c => isPyWs c)).reverse

/-- Python `str.strip()`. -/
def pyStrip (s : String) : String := String.mk (pyStripList s.data)

/-- Python list index resolution: a non-negative index is positional, a
negative one counts from the end, anything else raises `IndexError`
(signalled by `none`). -/
def pyIdx (n : Nat) (i : Int) : Option Nat :=
  if 0 ≤ i ∧ i < (n : Int) then some i.toNat
  else if -(n : Int) ≤ i ∧ i < 0 then some (i + n).toNat
  else none

/-- Python `l[i]` with Python index semantics; `none` means `IndexError`. -/
def pyGet (l : List α) (i : Int) : Option α :=
  match pyIdx l.length i with
  | some k => l.get? k
  | none => none

/-- Substring test on character lists (Python `in` on `str`). -/
def listContainsSub (sub : List Char) : List Char → Bool
  | [] => sub.isEmpty
  | c :: rest => sub.isPrefixOf (c :: rest) || listContainsSub sub rest

/-- Python `sub in s` for strings. -/
def strContainsSub (s sub : String) : Bool := listContainsSub sub.data s.data

/-- Python `s.replace(target, repl)`: replace all non-overlapping
occurrences, scanning left to right.  (For the empty target, which never
occurs in the embedded code, this is the identity.) -/
def pyReplaceFuel (target repl : List Char) : Nat → List Char → List Char
  | 0, cs => cs
  | fuel + 1, cs =>
    match cs with
    | [] => []
    | c :: rest =>
      if target ≠ [] ∧ target.isPrefixOf (c :: rest) then
        repl ++ pyReplaceFuel target repl fuel ((c :: rest).drop target.length)
      else
        c :: pyReplaceFuel target repl fuel rest

/-- Every step consumes at least one character, so `length + 1` units of
fuel always complete the scan. -/
def pyReplaceList (target repl cs : List Char) : List Char :=
  pyReplaceFuel target repl (cs.length + 1) cs

/-- Python `s.replace(target, repl)` on strings. -/
def pyReplace (s target repl : String) : String :=
  String.mk (pyReplaceList target.data repl.data s.data)

/-- Length of the maximal run of character `c` at the head of the list. -/
def charRun (c : Char) : List Char → Nat
  | [] => 0
  | d :: rest => if d = c then charRun c rest + 1 else 0

theorem charRun_le (c : Char) (l : List Char) : charRun c l ≤ l.length := by
  induction l with
  | nil => simp [charRun]
  | cons d rest ih => by_cases h : d = c <;> simp [charRun, h] <;> omega

/-- Split off the maximal whitespace run (`\s*` greedy). -/
def wsSpan : List Char → List Char × List Char
  | [] => ([], [])
  | c :: rest =>
    if isPyWs c then
      let p := wsSpan rest
      (c :: p.1, p.2)
    else ([], c :: rest)

theorem wsSpan_snd_length_le (l : List Char) : (wsSpan l).2.length ≤ l.length := by
  induction l with
  | nil => simp [wsSpan]
  | cons c rest ih =>
    by_cases h : isPyWs c = true <;> simp [wsSpan, h] <;> omega

/-- Split a whitespace run at its last newline: returns the part before
the last `'\n'` and the suffix starting at that `'\n'`. -/
def splitAtLastNl : List Char → Option (List Char × List Char)
  | [] => none
  | c :: rest =>
    match splitAtLastNl rest with
    | some p => some (c :: p.1, p.2)
    | none => if c = '\n' then some ([], c :: rest) else none

theorem splitAtLastNl_snd_length_le (l : List Char) :
    ∀ p, splitAtLastNl l = some p → p.2.length ≤ l.length := by
  induction l with
  | nil => intro p h; simp [splitAtLastNl] at h
  | cons c rest ih =>
    intro p h
    simp only [splitAtLastNl] at h
    cases hr : splitAtLastNl rest with
    | some q =>
      rw [hr] at h
      cases h
      have := ih q hr
      simp only [List.length_cons]
      omega
    | none =>
      rw [hr] at h
      by_cases hc : c = '\n'
      · simp [hc] at h
        cases h
        simp
      · simp [hc] at h

/-- `re.sub(r"^#{1,6}\s+", "", text, flags=re.MULTILINE)`: at each line
start, one to six `#` followed by at least one whitespace character
(greedy, so the whole following whitespace run, which may span lines) is
removed.  `atStart` records whether the current position is a line
start. -/
def subHeadersFuel : Nat → Bool → List Char → List Char
  | 0, _, cs => cs
  | fuel + 1, atStart, cs =>
    match cs with
    | [] => []
    | c :: rest =>
      if atStart ∧ c = '#' then
        let k := charRun '#' (c :: rest)
        let afterHashes := (c :: rest).drop k
        if k ≤ 6 ∧ (afterHashes.head?.elim false fun d => isPyWs d) then
          let p := wsSpan afterHashes
          subHeadersFuel fuel (decide (p.1.getLast? = some '\n')) p.2
        else
          c :: subHeadersFuel fuel false rest
      else
        c :: subHeadersFuel fuel (decide (c = '\n')) rest

/-- Every step consumes at least one character, so `length + 1` units of
fuel always complete the scan. -/
def subHeadersAux (atStart : Bool) (cs : List Char) : List Char :=
  subHeadersFuel (cs.length + 1) atStart cs

/-- Header stripping at a string start.  A `#` run longer than six never
matches: each of its prefixes of length one to six is followed by `#`,
which is not whitespace, so the regex fails at that line start. -/
def subHeaders (cs : List Char) : List Char := subHeadersAux true cs

/-- `re.sub(r"^-{3,}\s*$", "", text, flags=re.MULTILINE)`. -/
def subHRulesFuel : Nat → Bool → List Char → List Char
  | 0, _, cs => cs
  | fuel + 1, atStart, cs =>
    match cs with
    | [] => []
    | c :: rest =>
      if atStart ∧ c = '-' then
        let k := charRun '-' (c :: rest)
        if 3 ≤ k then
          let afterDashes := (c :: rest).drop k
          let p := wsSpan afterDashes
          if p.2.isEmpty then
            []
          else
            match splitAtLastNl p.1 with
            | some q => subHRulesFuel fuel false (q.2 ++ p.2)
            | none => c :: subHRulesFuel fuel false rest
        else c :: subHRulesFuel fuel false rest
      else c :: subHRulesFuel fuel (decide (c = '\n')) rest

/-- Every step consumes at least one character (the matched rule spans
the dash run and the whitespace up to its last newline), so `length + 1`
units of fuel always complete the scan. -/
def subHRulesAux (atStart : Bool) (cs : List Char) : List Char :=
  subHRulesFuel (cs.length + 1) atStart cs

def subHRules (cs : List Char) : List Char := subHRulesAux true cs

/-- `re.sub(r"\n{3,}", "\n\n", text)`. -/
def subBlankFuel : Nat → List Char → List Char
  | 0, cs => cs
  | fuel + 1, cs =>
    match cs with
    | [] => []
    | c :: rest =>
      if c = '\n' then
        let k := charRun '\n' (c :: rest)
        if 3 ≤ k then '\n' :: '\n' :: subBlankFuel fuel ((c :: rest).drop k)
        else List.replicate k '\n' ++ subBlankFuel fuel ((c :: rest).drop k)
      else c :: subBlankFuel fuel rest

/-- Every step consumes at least one character, so `length + 1` units of
fuel always complete the scan. -/
def subBlankAux (cs : List Char) : List Char := subBlankFuel (cs.length + 1) cs

/-- Lazy `(.+?)` up to a closing `*`: the shortest non-empty newline-free
prefix whose following character is `*`; returns the content and the
suffix starting at the closing star run. -/
def lazyToStars : List Char → Option (List Char × List Char)
  | [] => none
  | c :: rest =>
    if c = '\n' then none
    else if rest.head? = some '*' then some ([c], rest)
    else
      match lazyToStars rest with
      | some p => some (c :: p.1, p.2)
      | none => none

theorem lazyToStars_snd_length_lt (l : List Char) :
    ∀ p, lazyToStars l = some p → p.2.length < l.length := by
  induction l with
  | nil => intro p h; simp [lazyToStars] at h
  | cons c rest ih =>
    intro p h
    simp only [lazyToStars] at h
    by_cases hc : c = '\n'
    · simp [hc] at h
    · simp only [hc, if_false] at h
      by_cases hh : rest.head? = some '*'
      · simp [hh] at h
        cases h
        simp
      · simp only [hh, if_false] at h
        cases hr : lazyToStars rest with
        | some q =>
          rw [hr] at h
          cases h
          have := ih q hr
          simp only [List.length_cons]
          omega
        | none => rw [hr] at h; cases h

/-- Try opener sizes `s, s-1, ..., 1` for `\*{1,3}(.+?)\*{1,3}` at a
position beginning with a star run; on success returns the group and the
suffix after the (greedy, at most 3) closing stars. -/
def tryOpeners : Nat → List Char → Option (List Char × List Char)
  | 0, _ => none
  | s + 1, cs =>
    match lazyToStars (cs.drop (s + 1)) with
    | some p =>
      let cl := min (charRun '*' p.2) 3
      some (p.1, p.2.drop cl)
    | none => tryOpeners s cs

theorem tryOpeners_snd_length_lt (s : Nat) (cs : List Char) :
    ∀ p, tryOpeners s cs = some p → p.2.length < cs.length := by
  induction s with
  | zero => intro p h; simp [tryOpeners] at h
  | succ n ih =>
    intro p h
    simp only [tryOpeners] at h
    cases hr : lazyToStars (cs.drop (n + 1)) with
    | some q =>
      rw [hr] at h
      cases h
      have h1 := lazyToStars_snd_length_lt _ q hr
      have h2 : (cs.drop (n + 1)).length ≤ cs.length := by
        simp [List.length_drop]
      have h3 : (q.2.drop (min (charRun '*' q.2) 3)).length ≤ q.2.length := by
        simp [List.length_drop]
      simp only [List.length_drop] at *
      omega
    | none =>
      rw [hr] at h
      exact ih p h

/-- `re.sub(r"\*{1,3}(.+?)\*{1,3}", r"\1", text)`. -/
def subBoldFuel : Nat → List Char → List Char
  | 0, cs => cs
  | fuel + 1, cs =>
    match cs with
    | [] => []
    | c :: rest =>
      if c = '*' then
        match tryOpeners (min (charRun '*' (c :: rest)) 3) (c :: rest) with
        | some p => p.1 ++ subBoldFuel fuel p.2
        | none => c :: subBoldFuel fuel rest
      else c :: subBoldFuel fuel rest

/-- Every step consumes at least one character, so `length + 1` units of
fuel always complete the scan. -/
def subBoldAux (cs : List Char) : List Char := subBoldFuel (cs.length + 1) cs

/-- Split at the first occurrence of `stop`: returns the (possibly
empty) content before the first `stop` and the suffix after it. -/
def splitAtChar (stop : Char) : List Char → Option (List Char × List Char)
  | [] => none
  | c :: rest =>
    if c = stop then some ([], rest)
    else
      match splitAtChar stop rest with
      | some p => some (c :: p.1, p.2)
      | none => none

theorem splitAtChar_snd_length_lt (stop : Char) (l : List Char) :
    ∀ p, splitAtChar stop l = some p → p.2.length < l.length := by
  induction l with
  | nil => intro p h; simp [splitAtChar] at h
  | cons c rest ih =>
    intro p h
    simp only [splitAtChar] at h
    by_cases hc : c = stop
    · simp [hc] at h
      cases h
      simp
    · simp only [hc, if_false] at h
      cases hr : splitAtChar stop rest with
      | some q =>
        rw [hr] at h
        cases h
        have := ih q hr
        simp only [List.length_cons]
        omega
      | none => rw [hr] at h; cases h

/-- Match `\[([^\]]+)\]\([^)]+\)` at the current position: returns the
link text (group 1) and the suffix after the closing parenthesis. -/
def matchLinkAt : List Char → Option (List Char × List Char)
  | '[' :: rest =>
    match splitAtChar ']' rest with
    | some p =>
      if p.1.isEmpty then none
      else
        match p.2 with
        | '(' :: rest2 =>
          match splitAtChar ')' rest2 with
          | some q => if q.1.isEmpty then none else some (p.1, q.2)
          | none => none
        | _ => none
    | none => none
  | _ => none

theorem matchLinkAt_snd_length_lt (l : List Char) :
    ∀ p, matchLinkAt l = some p → p.2.length < l.length := by
  intro p h
  rw [matchLinkAt.eq_def] at h
  split at h
  case h_1 rest =>
    cases hr : splitAtChar ']' rest with
    | some q =>
      rw [hr] at h
      by_cases hq : q.1.isEmpty
      · simp [hq] at h
      · simp only [hq, if_false] at h
        have h1 := splitAtChar_snd_length_lt ']' rest q hr
        cases hq2 : q.2 with
        | nil => rw [hq2] at h; simp at h
        | cons d rest2 =>
          rw [hq2] at h
          by_cases hd : d = '('
          · subst hd
            simp only at h
            cases hs : splitAtChar ')' rest2 with
            | some r =>
              rw [hs] at h
              by_cases hr1 : r.1.isEmpty
              · simp [hr1] at h
              · simp only [hr1, if_false] at h
                cases h
                have h2 := splitAtChar_snd_length_lt ')' rest2 r hs
                rw [hq2] at h1
                simp only [List.length_cons] at *
                omega
            | none => rw [hs] at h; cases h
          · exact absurd h (by cases d <;> simp_all [matchLinkAt])
    | none => rw [hr] at h; cases h
  case h_2 => cases h

/-- `re.sub(r"\[([^\]]+)\]\([^)]+\)", r"\1", text)`. -/
def subLinksFuel : Nat → List Char → List Char
  | 0, cs => cs
  | fuel + 1, cs =>
    match cs with
    | [] => []
    | c :: rest =>
      match matchLinkAt (c :: rest) with
      | some p => p.1 ++ subLinksFuel fuel p.2
      | none => c :: subLinksFuel fuel rest

/-- Every step consumes at least one character, so `length + 1` units of
fuel always complete the scan. -/
def subLinksAux (cs : List Char) : List Char := subLinksFuel (cs.length + 1) cs

/-- `_strip_md` from `smart_filler.py`: strip markdown headers, emphasis
markers, link syntax and horizontal rules, collapse blank-line runs, then
`strip()`. -/
def _strip_md (text : String) : String :=
  pyStrip (String.mk (subBlankAux (subHRules (subLinksAux (subBoldAux (subHeaders text.data))))))

/-- The code points of `EMOJI_PATTERN` in `parsers/resume_parser.py`. -/
def emojiCodes : List Nat :=
  [0x1f4e7, 0x1f4de, 0x1f4cd, 0x1f4bc, 0x1f4c5, 0x1f393, 0x1f3e2, 0x1f4dd,
   0x1f4c4, 0x1f517, 0x1f310, 0x1f4f1, 0x260e, 0x2709, 0x2706, 0x2702]

/-- `re.sub(EMOJI_PATTERN, "", text)`: each listed emoji character plus
the following whitespace run is removed. -/
def subEmojiFuel : Nat → List Char → List Char
  | 0, cs => cs
  | fuel + 1, cs =>
    match cs with
    | [] => []
    | c :: rest =>
      if c.toNat ∈ emojiCodes then
        subEmojiFuel fuel (wsSpan rest).2
      else c :: subEmojiFuel fuel rest

/-- Every step consumes at least one character, so `length + 1` units of
fuel always complete the scan. -/
def subEmojiAux (cs : List Char) : List Char := subEmojiFuel (cs.length + 1) cs

/-- `_md_to_plain` from `docx_renderer.py`: like `_strip_md`, plus emoji
removal before the blank-line collapse. -/
def _md_to_plain (md : String) : String :=
  pyStrip (String.mk (subBlankAux (subEmojiAux (subHRules (subLinksAux (subBoldAux (subHeaders md.data)))))))

/-! ## The python-docx document model

Only what the embedded code observes is modelled: paragraph styles and
run texts, tables as grids of `w:tc` cell slots.  Python object identity
of a `w:tc` element (`id(cell._tc)`), which the code uses to deduplicate
merged cells, is modelled by an explicit `tcId`; merged cells repeat the
same `tcId` (and, by aliasing, carry equal content).  Run-level font
attributes are not modelled (no claim observes them). -/

/-- An underlying `w:tc` table-cell element: its identity and its
paragraphs, each a list of run texts. -/
structure Tc where
  tcId : Nat
  paras : List (List String)
deriving DecidableEq

/-- A table row as the `row.cells` sequence of grid slots (one slot per
grid column; merged cells repeat the same `Tc`). -/
abbrev TableRow := List Tc

/-- A table: its grid column count (`len(table.columns)`) and rows. -/
structure DocTable where
  gridCols : Nat
  rows : List TableRow
deriving DecidableEq

/-- A body paragraph: style name and run texts. -/
structure Para where
  style : String
  runs : List String
deriving DecidableEq

/-- A python-docx `Document`. -/
structure Doc where
  paragraphs : List Para
  tables : List DocTable
deriving DecidableEq

/-- `paragraph.text`: concatenation of the run texts. -/
def paraText (p : Para) : String := String.join p.runs

/-- `cell.text`: paragraph texts joined with newlines. -/
def tcText (tc : Tc) : String :=
  String.intercalate "\n" (tc.paras.map String.join)

/-! ## Structure description (`extract_docx_structure`) -/

/-- One cell of the structure description.  The Python dict carries the
`span` key only when the span exceeds 1 and the `empty` key only when the
cell is empty; they are modelled as `Option`/`Bool`. -/
structure CellInfo where
  col : Nat
  text : String
  span : Option Nat
  empty : Bool
deriving DecidableEq

structure RowInfo where
  row : Nat
  cells : List CellInfo
deriving DecidableEq

structure TableInfo where
  idx : Nat
  rows : Nat
  cols : Nat
  header_rows : List RowInfo
  data_rows : List RowInfo
deriving DecidableEq

structure ParaInfo where
  idx : Nat
  style : String
  text : String
deriving DecidableEq

structure StructureDesc where
  paragraphs : List ParaInfo
  tables : List TableInfo
deriving DecidableEq

/-- First pass over one row of `extract_docx_structure`: walk the grid
slots left to right, skip slots whose `w:tc` identity was already seen,
and give each new cell the next sequential unique-cell index. -/
def extractRowCellsAux (fullRow : TableRow) : List Nat → Nat → List Tc → List CellInfo
  | _, _, [] => []
  | seen, uniqueIdx, tc :: rest =>
    if tc.tcId ∈ seen then extractRowCellsAux fullRow seen uniqueIdx rest
    else
      let span := (fullRow.filter (fun c => c.tcId = tc.tcId)).length
      let text := pyStrip (tcText tc)
      { col := uniqueIdx,
        text := if text ≠ "" then text.take 300 else "",
        span := if span > 1 then some span else none,
        empty := text = "" } ::
        extractRowCellsAux fullRow (tc.tcId :: seen) (uniqueIdx + 1) rest

def extractRowCells (row : TableRow) : List CellInfo :=
  extractRowCellsAux row [] 0 row

/-- `all_rows_data` of one table. -/
def allRowsData (t : DocTable) : List RowInfo :=
  t.rows.enum.map (fun p => { row := p.1, cells := extractRowCells p.2 })

/-- The fixed label-keyword set of `_is_header_row`. -/
def label_keywords : List String :=
  ["기간", "근무", "회사", "직위", "직급", "담당", "업무",
   "학교", "학력", "전공", "기술", "자격", "수상", "어학",
   "년", "월", "일", "시작", "종료", "성명", "생년월일",
   "주소", "연락처", "이메일", "성별"]

/-- `_is_header_row` from `smart_filler.py`.  The float ratio tests
`non_empty_ratio > 0.3`, `>= 0.5`, `>= 0.6` and `next_empty_ratio >= 0.5`
are embedded exactly by cross multiplication. -/
def _is_header_row (ri : Nat) (cells : List CellInfo) (all_rows : List RowInfo) : Bool :=
  let non_empty := cells.filter (fun c => !c.empty)
  let denom := max cells.length 1
  if ri < 2 ∧ 10 * non_empty.length > 3 * denom then true
  else if 2 * non_empty.length ≥ denom then
    let label_like :=
      (non_empty.filter (fun c => label_keywords.any (fun kw => strContainsSub c.text kw))).length
    if label_like ≥ 2 then true
    else if h : ri + 1 < all_rows.length then
      let next_cells := (all_rows.get ⟨ri + 1, h⟩).cells
      let next_denom := max next_cells.length 1
      let next_empty := (next_cells.filter (fun c => c.empty)).length
      decide (2 * next_empty ≥ next_denom ∧ 10 * non_empty.length ≥ 6 * denom)
    else false
  else false

/-- Second pass of `extract_docx_structure`: a fully-empty row goes to
`data_rows` without consulting `_is_header_row`. -/
def rowClassifiedHeader (all_rows : List RowInfo) (rd : RowInfo) : Bool :=
  if (rd.cells.filter (fun c => !c.empty)).length = 0 then false
  else _is_header_row rd.row rd.cells all_rows

def extractTableInfo (ti : Nat) (t : DocTable) : TableInfo :=
  let all_rows := allRowsData t
  { idx := ti,
    rows := t.rows.length,
    cols := t.gridCols,
    header_rows := all_rows.filter (fun rd => rowClassifiedHeader all_rows rd),
    data_rows := all_rows.filter (fun rd => !rowClassifiedHeader all_rows rd) }

/-- Paragraph part of `extract_docx_structure`: every body paragraph is
counted for `idx`, only non-empty ones are listed. -/
def extractParagraphs (ps : List Para) : List ParaInfo :=
  ps.enum.filterMap (fun p =>
    let text := pyStrip (paraText p.2)
    if text ≠ "" then some { idx := p.1, style := p.2.style, text := text.take 300 }
    else none)

/-- `extract_docx_structure` from `smart_filler.py`. -/
def extract_docx_structure (doc : Doc) : StructureDesc :=
  { paragraphs := extractParagraphs doc.paragraphs,
    tables := doc.tables.enum.map (fun p => extractTableInfo p.1 p.2) }

/-- `_get_unique_cells_with_col` from `smart_filler.py`: the
`{col_index: cell}` mapping (an association list whose keys are the
sequential unique-cell indices, in ascending order). -/
def _get_unique_cells_with_colAux : List Nat → Nat → List Tc → List (Nat × Tc)
  | _, _, [] => []
  | seen, uniqueIdx, tc :: rest =>
    if tc.tcId ∈ seen then _get_unique_cells_with_colAux seen uniqueIdx rest
    else (uniqueIdx, tc) :: _get_unique_cells_with_colAux (tc.tcId :: seen) (uniqueIdx + 1) rest

def _get_unique_cells_with_col (row : TableRow) : List (Nat × Tc) :=
  _get_unique_cells_with_colAux [] 0 row

/-! ## Fill plans and the validator (`validate_fill_plan`) -/

/-- One `{col, value}` entry of a table fill (`fill.get("col")`,
`fill.get("value", "")`). -/
structure FillEntry where
  col : Option Int
  value : Option String
deriving DecidableEq

/-- A `FillItem`: the tagged union of the plan payload.  Items whose
`target` is neither `"table"` nor `"paragraph"` are `otherTarget` (both
validator and executor skip them). -/
inductive FillItem where
  | tableFill (table_idx : Option Int) (row : Option Int) (fills : List FillEntry)
  | paragraphFill (action : Option String) (paragraph_idx : Option Int)
      (after_paragraph_idx : Option Int) (value : Option String)
  | otherTarget
deriving DecidableEq

structure FillPlan where
  fill_plan : List FillItem
deriving DecidableEq

/-- `MAX_ADD_ROWS = 20`. -/
def MAX_ADD_ROWS : Nat := 20

/-- The validator's error strings, as structured values carrying the same
information (item index plus the interpolated data). -/
inductive VError where
  | tableIdxRange (i : Nat) (table_idx : Int) (ntables : Nat)
  | rowMissing (i : Nat)
  | headerRowProtected (i : Nat) (row : Int)
  | rowRange (i : Nat) (row : Int) (rows maxAdd : Nat)
  | duplicateFill (i : Nat) (table_idx row col : Int)
  | colNotFound (i : Nat) (table_idx row col : Int) (valid : List Nat)
  | paragraphIdxRange (i : Nat) (idx : Int)
  | afterParagraphIdxRange (i : Nat) (idx : Int)
deriving DecidableEq

/-- `header_rows_by_table`: dict keyed by `t["idx"]` (later tables
overwrite earlier duplicates, hence the reversed search), queried with
`.get(table_idx, set())`. -/
def headerRowsByTable (tables : List TableInfo) (table_idx : Int) : Option (List Nat) :=
  (tables.reverse.find? (fun t => (t.idx : Int) == table_idx)).map
    (fun t => t.header_rows.map (fun hr => hr.row))

/-- `valid_cols_by_row`: dict keyed by `(t["idx"], row)` over
`header_rows + data_rows` of every table, later entries overwriting. -/
def validColsByRow (tables : List TableInfo) (table_idx row : Int) : Option (List Nat) :=
  ((tables.map (fun t => (t.header_rows ++ t.data_rows).map (fun rd => (t.idx, rd)))).join.reverse.find?
      (fun p => (p.1 : Int) == table_idx && (p.2.row : Int) == row)).map
    (fun p => p.2.cells.map (fun c => c.col))

/-- The inner `for fill in item.get("fills", [])` loop of
`validate_fill_plan`: duplicate detection against the running
`seen_cells` set, then column validity.  Returns the errors of this item
portion and the updated seen set. -/
def validateFills (i : Nat) (table_idx row : Int) (valid_cols : Option (List Nat))
    (seen : List (Int × Int × Int)) :
    List FillEntry → List VError × List (Int × Int × Int)
  | [] => ([], seen)
  | fe :: rest =>
    match fe.col with
    | none => validateFills i table_idx row valid_cols seen rest
    | some col =>
      let key : Int × Int × Int := (table_idx, row, col)
      let dupErrs := if key ∈ seen then [VError.duplicateFill i table_idx row col] else []
      let seen2 := if key ∈ seen then seen else key :: seen
      let colErrs :=
        match valid_cols with
        | some vc =>
          if vc.any (fun c => (c : Int) == col) then []
          else [VError.colNotFound i table_idx row col (List.insertionSort (· ≤ ·) vc.dedup)]
        | none => []
      let res := validateFills i table_idx row valid_cols seen2 rest
      (dupErrs ++ colErrs ++ res.1, res.2)

/-- The item loop of `validate_fill_plan`.  `i` is the running item
index, `seen` the `seen_cells` set.  `tables[table_idx]` (executed after
the header check) raises `IndexError` when `table_idx` is below
`-len(tables)`. -/
def validateItems (tables : List TableInfo) (paragraphs : List ParaInfo) :
    Nat → List (Int × Int × Int) → List FillItem → Except PyErr (List VError)
  | _, _, [] => .ok []
  | i, seen, item :: rest =>
    match item with
    | .tableFill table_idxOpt rowOpt fills =>
      let table_idx := table_idxOpt.getD 0
      if table_idx ≥ (tables.length : Int) then
        (validateItems tables paragraphs (i + 1) seen rest).map
          (fun es => VError.tableIdxRange i table_idx tables.length :: es)
      else
        match rowOpt with
        | none =>
          (validateItems tables paragraphs (i + 1) seen rest).map
            (fun es => VError.rowMissing i :: es)
        | some row =>
          if ((headerRowsByTable tables table_idx).getD []).any (fun h => (h : Int) == row) then
            (validateItems tables paragraphs (i + 1) seen rest).map
              (fun es => VError.headerRowProtected i row :: es)
          else
            match pyGet tables table_idx with
            | none => .error .indexError
            | some t =>
              if row ≥ (t.rows : Int) + (MAX_ADD_ROWS : Int) then
                (validateItems tables paragraphs (i + 1) seen rest).map
                  (fun es => VError.rowRange i row t.rows MAX_ADD_ROWS :: es)
              else
                let valid_cols := validColsByRow tables table_idx row
                let fr := validateFills i table_idx row valid_cols seen fills
                (validateItems tables paragraphs (i + 1) fr.2 rest).map
                  (fun es => fr.1 ++ es)
    | .paragraphFill actionOpt pidx aidx _ =>
      let action := actionOpt.getD "replace"
      let errsHere :=
        if action = "replace" then
          match pidx with
          | some idx =>
            if idx ≥ (paragraphs.length : Int) then [VError.paragraphIdxRange i idx] else []
          | none => []
        else if action = "insert" then
          match aidx with
          | some idx =>
            if idx ≥ (paragraphs.length : Int) then [VError.afterParagraphIdxRange i idx] else []
          | none => []
        else []
      (validateItems tables paragraphs (i + 1) seen rest).map (fun es => errsHere ++ es)
    | .otherTarget => validateItems tables paragraphs (i + 1) seen rest

/-- `validate_fill_plan` from `smart_filler.py`. -/
def validate_fill_plan (sd : StructureDesc) (plan : FillPlan) : Except PyErr (List VError) :=
  validateItems sd.tables sd.paragraphs 0 [] plan.fill_plan

/-! ## The executor (`execute_fill_plan`) -/

/-- All `tcId`s of a document. -/
def docTcIds (doc : Doc) : List Nat :=
  (doc.tables.map (fun t => (t.rows.map (fun r => r.map (fun tc => tc.tcId))).join)).join

def docMaxTcId (doc : Doc) : Nat := (docTcIds doc).foldr max 0

/-- Python `text.split("\n")`. -/
def splitLines : List Char → List (List Char)
  | [] => [[]]
  | c :: rest =>
    let r := splitLines rest
    if c = '\n' then [] :: r
    else (c :: r.headD []) :: r.tail

/-- The content transformation of `_set_cell_text`: clear every run of
every paragraph of the cell, write the first line into the first run of
the first paragraph (creating one when none exists), and append one new
paragraph per remaining line. -/
def setCellParas (paras : List (List String)) (text : String) : List (List String) :=
  let lines := (splitLines text.data).map String.mk
  let firstLine := lines.headD ""
  let restLines := lines.tail
  match paras with
  | [] => (firstLine :: restLines).map (fun l => [l])
  | p0 :: rest =>
    let p0new :=
      match p0 with
      | [] => [firstLine]
      | _ :: others => firstLine :: others.map (fun _ => "")
    (p0new :: rest.map (fun p => p.map (fun _ => ""))) ++ restLines.map (fun l => [l])

/-- `_set_cell_text(cell, text)`: the Python code mutates one shared
`w:tc` object; all grid slots aliasing it (same `tcId`, anywhere in the
document) observe the update. -/
def _set_cell_text (doc : Doc) (tcId : Nat) (text : String) : Doc :=
  { doc with tables := doc.tables.map (fun t =>
      { t with rows := t.rows.map (fun r => r.map (fun tc =>
          if tc.tcId = tcId then { tc with paras := setCellParas tc.paras text } else tc)) }) }

/-- Index of the first slot of `row` aliasing `tcId` (used to give the
deep-copied row the alias pattern of the source row). -/
def rowFirstIdxOf (row : TableRow) (tcId : Nat) : Nat :=
  (row.map (fun tc => tc.tcId)).indexOf tcId

/-- `deepcopy(last_row._tr)` + clearing every `w:t`: fresh `w:tc`
identities (disjoint from every existing one), same merge pattern, all
run texts emptied. -/
def cloneRowCleared (base : Nat) (row : TableRow) : TableRow :=
  row.map (fun tc =>
    { tcId := base + rowFirstIdxOf row tc.tcId,
      paras := tc.paras.map (fun p => p.map (fun _ => "")) })

/-- `_add_table_row(table)`: clone the last row (raises `IndexError` on a
rowless table), clear its text, append it. -/
def _add_table_row (doc : Doc) (t : Nat) : Except PyErr Doc :=
  match doc.tables.get? t with
  | none => .error .indexError
  | some table =>
    match table.rows.getLast? with
    | none => .error .indexError
    | some last =>
      let newRow := cloneRowCleared (docMaxTcId doc + 1) last
      .ok { doc with tables := doc.tables.set t { table with rows := table.rows ++ [newRow] } }

/-- The `while row_idx >= len(table.rows) and rows_added < MAX_ADD_ROWS`
loop; the fuel argument counts the remaining allowed additions. -/
def addRowsLoop (doc : Doc) (t : Nat) (row_idx : Int) : Nat → Except PyErr Doc
  | 0 => .ok doc
  | n + 1 =>
    match doc.tables.get? t with
    | none => .ok doc
    | some table =>
      if row_idx ≥ (table.rows.length : Int) then
        match _add_table_row doc t with
        | .ok doc2 => addRowsLoop doc2 t row_idx n
        | .error e => .error e
      else .ok doc

/-- The `for fill in item.get("fills", [])` loop of
`_execute_table_fill`: returns the updated document and the
`(filled, failed)` counts. -/
def execFills (doc : Doc) (unique_cells : List (Nat × Tc)) :
    List FillEntry → Doc × Nat × Nat
  | [] => (doc, 0, 0)
  | fe :: rest =>
    match fe.col with
    | none => execFills doc unique_cells rest
    | some col =>
      let value := fe.value.getD ""
      if value = "" then execFills doc unique_cells rest
      else
        match unique_cells.find? (fun p => (p.1 : Int) == col) with
        | some p =>
          let doc2 := _set_cell_text doc p.2.tcId (_strip_md value)
          let res := execFills doc2 unique_cells rest
          (res.1, res.2.1 + 1, res.2.2)
        | none =>
          let res := execFills doc unique_cells rest
          (res.1, res.2.1, res.2.2 + 1)

/-- `_execute_table_fill` from `smart_filler.py`: returns the updated
document and `(filled, failed)`. -/
def _execute_table_fill (doc : Doc) (table_idxOpt rowOpt : Option Int)
    (fills : List FillEntry) : Except PyErr (Doc × Nat × Nat) :=
  let table_idx := table_idxOpt.getD 0
  if table_idx ≥ (doc.tables.length : Int) ∨ rowOpt = none then .ok (doc, 0, 1)
  else
    match rowOpt with
    | none => .ok (doc, 0, 1)
    | some row_idx =>
      match pyIdx doc.tables.length table_idx with
      | none => .error .indexError
      | some t =>
        match addRowsLoop doc t row_idx MAX_ADD_ROWS with
        | .error e => .error e
        | .ok doc2 =>
          match doc2.tables.get? t with
          | none => .error .indexError
          | some table2 =>
            if row_idx ≥ (table2.rows.length : Int) then
              .ok (doc2, 0, fills.length)
            else
              match pyGet table2.rows row_idx with
              | none => .error .indexError
              | some row =>
                .ok (execFills doc2 (_get_unique_cells_with_col row) fills)

/-- `_execute_paragraph_fill` from `smart_filler.py` (returns only the
document: the caller counts every paragraph item as one fill). -/
def _execute_paragraph_fill (doc : Doc) (actionOpt : Option String)
    (pidxOpt aidxOpt : Option Int) (valueOpt : Option String) : Except PyErr Doc :=
  let action := actionOpt.getD "replace"
  let value := _strip_md (valueOpt.getD "")
  if action = "replace" then
    match pidxOpt with
    | some idx =>
      if idx < (doc.paragraphs.length : Int) then
        match pyIdx doc.paragraphs.length idx with
        | none => .error .indexError
        | some k =>
          match doc.paragraphs.get? k with
          | none => .error .indexError
          | some para =>
            let newRuns :=
              match para.runs with
              | [] => [value]
              | _ :: others => value :: others.map (fun _ => "")
            .ok { doc with paragraphs := doc.paragraphs.set k { para with runs := newRuns } }
      else .ok doc
    | none => .ok doc
  else if action = "insert" then
    match aidxOpt with
    | some idx =>
      if idx < (doc.paragraphs.length : Int) then
        match pyIdx doc.paragraphs.length idx with
        | none => .error .indexError
        | some k =>
          match doc.paragraphs.get? k with
          | none => .error .indexError
          | some anchor =>
            .ok { doc with paragraphs :=
              doc.paragraphs.take (k + 1) ++ [{ style := anchor.style, runs := [value] }] ++
                doc.paragraphs.drop (k + 1) }
      else .ok doc
    | none => .ok doc
  else .ok doc

/-- One iteration of the item loop of `execute_fill_plan`. -/
def execItem (doc : Doc) (item : FillItem) : Except PyErr (Doc × Nat × Nat) :=
  match item with
  | .tableFill tidx row fills => _execute_table_fill doc tidx row fills
  | .paragraphFill action pidx aidx value =>
    match _execute_paragraph_fill doc action pidx aidx value with
    | .ok doc2 => .ok (doc2, 1, 0)
    | .error e => .error e
  | .otherTarget => .ok (doc, 0, 0)

def execItems (doc : Doc) : List FillItem → Except PyErr (Doc × Nat × Nat)
  | [] => .ok (doc, 0, 0)
  | item :: rest =>
    match execItem doc item with
    | .error e => .error e
    | .ok r =>
      match execItems r.1 rest with
      | .error e => .error e
      | .ok r2 => .ok (r2.1, r.2.1 + r2.2.1, r.2.2 + r2.2.2)

/-- `execute_fill_plan` from `smart_filler.py`: the returned document is
the one saved to `output_path`, together with the logged
`(filled, failed)` counts. -/
def execute_fill_plan (doc : Doc) (plan : FillPlan) : Except PyErr (Doc × Nat × Nat) :=
  execItems doc plan.fill_plan

/-! ## The repair loop (`smart_fill_docx`) -/

/-- The `for attempt in range(max_attempts)` loop of `smart_fill_docx`.
`revise` models the external `_retry_with_errors` LLM call.  Returns the
final plan, the last validation result, and how many times validation
and revision ran.  For `max_attempts = 0` Python reads the unbound local
`errors` after the loop: `NameError`. -/
def repairLoopAux (sd : StructureDesc) (revise : FillPlan → List VError → FillPlan) :
    FillPlan → Nat → Except PyErr (FillPlan × List VError × Nat × Nat)
  | _, 0 => .error .nameError
  | plan, n + 1 =>
    match validate_fill_plan sd plan with
    | .error e => .error e
    | .ok errors =>
      if errors.isEmpty then .ok (plan, errors, 1, 0)
      else if n = 0 then .ok (plan, errors, 1, 0)
      else
        match repairLoopAux sd revise (revise plan errors) n with
        | .error e => .error e
        | .ok r => .ok (r.1, r.2.1, r.2.2.1 + 1, r.2.2.2 + 1)

/-- `smart_fill_docx` from `smart_filler.py`, with the two external LLM
calls abstracted: `plan0` is the plan returned by `analyze_and_plan` and
`revise` models `_retry_with_errors`.  Whatever the residual validation
errors, the final plan is executed and the result returned. -/
def smart_fill_docx (doc : Doc) (revise : FillPlan → List VError → FillPlan)
    (plan0 : FillPlan) (maxAttempts : Nat) : Except PyErr (Doc × Nat × Nat) :=
  match repairLoopAux (extract_docx_structure doc) revise plan0 maxAttempts with
  | .error e => .error e
  | .ok r => execute_fill_plan doc r.1

/-! ## The placeholder fast path (`docx_renderer.py`) -/

/-- Brace characters, named to keep the source free of literal braces. -/
def lbrace : Char := Char.ofNat 123

def rbrace : Char := Char.ofNat 125

/-- The literal "\x7b\x7b". -/
def phOpen : List Char := [lbrace, lbrace]

/-- The literal "\x7d\x7d". -/
def phClose : List Char := [rbrace, rbrace]

structure ResumeSection where
  id : String
  label : String
  content : String
deriving DecidableEq

structure TailoredResume where
  full_markdown : String
  sections : List ResumeSection
deriving DecidableEq

/-- Python dict assignment: overwrite in place or append. -/
def pyDictSet (m : List (String × String)) (k v : String) : List (String × String) :=
  if m.any (fun p => p.1 == k) then m.map (fun p => if p.1 == k then (k, v) else p)
  else m ++ [(k, v)]

/-- Python `dict.update`. -/
def pyDictUpdate (m kvs : List (String × String)) : List (String × String) :=
  kvs.foldl (fun acc p => pyDictSet acc p.1 p.2) m

/-- `_build_replacement_map` from `docx_renderer.py`. -/
def _build_replacement_map (resume : TailoredResume)
    (extra_vars : Option (List (String × String))) : List (String × String) :=
  let m := pyDictSet (pyDictSet [] "전체" resume.full_markdown) "full" resume.full_markdown
  let m := resume.sections.foldl
    (fun acc s => pyDictSet (pyDictSet acc s.id s.content) s.label s.content) m
  match extra_vars with
  | some ev => pyDictUpdate m ev
  | none => m

/-- Lazy `(.+?)` of `\x7b\x7b(.+?)\x7d\x7d` after an opening brace pair:
the shortest non-empty newline-free prefix followed by a closing brace
pair; returns the key and the suffix after the closing braces. -/
def lazyKey : List Char → Option (List Char × List Char)
  | [] => none
  | c :: rest =>
    if c = '\n' then none
    else if rest.take 2 = [rbrace, rbrace] then some ([c], rest.drop 2)
    else
      match lazyKey rest with
      | some p => some (c :: p.1, p.2)
      | none => none

theorem lazyKey_snd_length_lt (l : List Char) :
    ∀ p, lazyKey l = some p → p.2.length < l.length := by
  induction l with
  | nil => intro p h; simp [lazyKey] at h
  | cons c rest ih =>
    intro p h
    simp only [lazyKey] at h
    by_cases hc : c = '\n'
    · simp [hc] at h
    · simp only [hc, if_false] at h
      by_cases ht : rest.take 2 = [rbrace, rbrace]
      · simp only [ht, if_pos rfl] at h
        cases h
        have : rest.length ≥ 2 := by
          have := congrArg List.length ht
          simp [List.length_take] at this
          omega
        simp only [List.length_drop, List.length_cons]
        omega
      · rw [if_neg ht] at h
        cases hr : lazyKey rest with
        | some q =>
          rw [hr] at h
          cases h
          have := ih q hr
          simp only [List.length_cons]
          omega
        | none => rw [hr] at h; cases h

/-- First match of `\x7b\x7b(.+?)\x7d\x7d` (leftmost start, lazy key):
returns the text before the match, the key, and the suffix after the
match. -/
def findPH : List Char → Option (List Char × List Char × List Char)
  | [] => none
  | c :: rest =>
    if c = lbrace ∧ rest.head? = some lbrace then
      match lazyKey rest.tail with
      | some p => some ([], p.1, p.2)
      | none =>
        match findPH rest with
        | some q => some (c :: q.1, q.2.1, q.2.2)
        | none => none
    else
      match findPH rest with
      | some q => some (c :: q.1, q.2.1, q.2.2)
      | none => none

theorem findPH_rest_length_lt (l : List Char) :
    ∀ q, findPH l = some q → q.2.2.length < l.length := by
  induction l with
  | nil => intro q h; simp [findPH] at h
  | cons c rest ih =>
    intro q h
    simp only [findPH] at h
    by_cases hc : c = lbrace ∧ rest.head? = some lbrace
    · simp only [hc, and_self, if_pos] at h
      cases hk : lazyKey rest.tail with
      | some p =>
        rw [hk] at h
        cases h
        have h1 := lazyKey_snd_length_lt _ p hk
        have h2 : rest.tail.length ≤ rest.length := by
          cases rest <;> simp
        simp only [List.length_cons]
        omega
      | none =>
        rw [hk] at h
        cases hr : findPH rest with
        | some q2 =>
          rw [hr] at h
          cases h
          have := ih q2 hr
          simp only [List.length_cons]
          omega
        | none => rw [hr] at h; cases h
    · simp only [if_neg hc] at h
      cases hr : findPH rest with
      | some q2 =>
        rw [hr] at h
        cases h
        have := ih q2 hr
        simp only [List.length_cons]
        omega
      | none => rw [hr] at h; cases h

/-- `list(pattern.finditer(full_text))`: the keys of all non-overlapping
matches, in order. -/
def findMatchesFuel : Nat → List Char → List (List Char)
  | 0, _ => []
  | fuel + 1, cs =>
    match findPH cs with
    | some q => q.2.1 :: findMatchesFuel fuel q.2.2
    | none => []

/-- Every match consumes at least one character of the scanned suffix,
so `length + 1` units of fuel always complete the scan. -/
def findMatches (cs : List Char) : List (List Char) := findMatchesFuel (cs.length + 1) cs

/-- `match.group(1).strip().lower()`. -/
def strLower (s : String) : String := String.mk (s.data.map Char.toLower)

def keyNorm (k : List Char) : String := strLower (pyStrip (String.mk k))

/-- `for rkey, rval in replacements.items(): if rkey.lower() == key`:
the first value whose key matches case-insensitively. -/
def lookupKey (repl : List (String × String)) (key : String) : Option String :=
  (repl.find? (fun p => strLower p.1 == key)).map (fun p => p.2)

/-- Scan the matches of one text in order and return the first whose key
is in the replacement map: the full matched placeholder (group 0) and
the raw replacement value. -/
def firstHitFuel (repl : List (String × String)) :
    Nat → List Char → Option (List Char × String)
  | 0, _ => none
  | fuel + 1, cs =>
    match findPH cs with
    | some q =>
      match lookupKey repl (keyNorm q.2.1) with
      | some v => some (phOpen ++ q.2.1 ++ phClose, v)
      | none => firstHitFuel repl fuel q.2.2
    | none => none

/-- Every match consumes at least one character of the scanned suffix,
so `length + 1` units of fuel always complete the scan. -/
def firstHit (repl : List (String × String)) (cs : List Char) :
    Option (List Char × String) :=
  firstHitFuel repl (cs.length + 1) cs

/-- The run-level loop of `_replace_in_paragraph`: the first run with a
matched placeholder has all occurrences of that placeholder replaced
(`run.text.replace`), and the function returns. -/
def simplePath (repl : List (String × String)) : List String → Option (List String)
  | [] => none
  | r :: rest =>
    match firstHit repl r.data with
    | some p => some (String.mk (pyReplaceList p.1 (_md_to_plain p.2).data r.data) :: rest)
    | none => (simplePath repl rest).map (fun rs => r :: rs)

/-- `_rebuild_paragraph_with_replacement` from `docx_renderer.py`. -/
def _rebuild_paragraph_with_replacement (runs : List String) (placeholder : List Char)
    (replacement : String) : List String :=
  let full_text := (runs.map String.data).join
  if ¬ (listContainsSub placeholder full_text) then runs
  else
    let new_text := pyReplaceList placeholder replacement.data full_text
    match runs with
    | [] => []
    | _ :: rest => String.mk new_text :: rest.map (fun _ => "")

/-- `_replace_in_paragraph` from `docx_renderer.py`. -/
def _replace_in_paragraph (repl : List (String × String)) (p : Para) : Para :=
  let full_text := (p.runs.map String.data).join
  if ¬ (listContainsSub phOpen full_text) then p
  else if (findMatches full_text).isEmpty then p
  else
    match simplePath repl p.runs with
    | some newRuns => { p with runs := newRuns }
    | none =>
      match firstHit repl full_text with
      | some q =>
        { p with runs := _rebuild_paragraph_with_replacement p.runs q.1 (_md_to_plain q.2) }
      | none => p

/-- A table cell as the renderer sees it (cells are traversed one by
one; the documents quantified over in the renderer theorems carry no
merged cells, so no aliasing is modelled here). -/
structure RCell where
  paras : List Para
deriving DecidableEq

/-- A document section: header and footer paragraphs. -/
structure RDocSect where
  header : List Para
  footer : List Para
deriving DecidableEq

/-- The renderer's view of a document: body paragraphs, tables (rows of
cells of paragraphs), section headers and footers. -/
structure RDoc where
  paragraphs : List Para
  tables : List (List (List RCell))
  sections : List RDocSect
deriving DecidableEq

/-- `fill_docx_template` from `docx_renderer.py`: replace placeholders
in every body paragraph, table-cell paragraph, and section
header/footer paragraph; the result is the document saved to
`output_path`. -/
def fill_docx_template (doc : RDoc) (resume : TailoredResume)
    (extra_vars : Option (List (String × String))) : RDoc :=
  let replacements := _build_replacement_map resume extra_vars
  { paragraphs := doc.paragraphs.map (fun p => _replace_in_paragraph replacements p),
    tables := doc.tables.map (fun t => t.map (fun row => row.map (fun cell =>
      { paras := cell.paras.map (fun p => _replace_in_paragraph replacements p) }))),
    sections := doc.sections.map (fun s =>
      { header := s.header.map (fun p => _replace_in_paragraph replacements p),
        footer := s.footer.map (fun p => _replace_in_paragraph replacements p) }) }

/-! ## Support lemmas -/

theorem extractRowCellsAux_map_col (fullRow : TableRow) :
    ∀ (cells : List Tc) (seen : List Nat) (k : Nat),
      (extractRowCellsAux fullRow seen k cells).map (fun c => c.col) =
        (_get_unique_cells_with_colAux seen k cells).map (fun p => p.1) := by
  intro cells
  induction cells with
  | nil => intro seen k; rfl
  | cons tc rest ih =>
    intro seen k
    by_cases h : tc.tcId ∈ seen
    · simp only [extractRowCellsAux, _get_unique_cells_with_colAux, if_pos h]
      exact ih seen k
    · simp only [extractRowCellsAux, _get_unique_cells_with_colAux, if_neg h, List.map_cons]
      exact congrArg (List.cons k) (ih (tc.tcId :: seen) (k + 1))

/-- The keys handed out by `_get_unique_cells_with_colAux` are the
consecutive integers starting at its counter. -/
theorem uniqueAux_map_fst (cells : List Tc) :
    ∀ (seen : List Nat) (k : Nat),
      (_get_unique_cells_with_colAux seen k cells).map (fun p => p.1) =
        List.range' k (_get_unique_cells_with_colAux seen k cells).length := by
  induction cells with
  | nil => intro seen k; rfl
  | cons tc rest ih =>
    intro seen k
    by_cases h : tc.tcId ∈ seen
    · simp only [_get_unique_cells_with_colAux, if_pos h]
      exact ih seen k
    · simp only [_get_unique_cells_with_colAux, if_neg h, List.map_cons, List.length_cons,
        List.range'_succ]
      exact congrArg (List.cons k) (ih (tc.tcId :: seen) (k + 1))

/-! ## C2: index stability between extractor and executor -/

/-- C2: for every table row, the sequence (hence the set) of `col`
indices that `extract_docx_structure` assigns to the row's
merge-deduplicated cells equals the key sequence (hence key set) of the
`{col_index: cell}` mapping `_get_unique_cells_with_col` builds for the
same row: both walk the grid slots left to right, deduplicate by
underlying `w:tc` identity, and hand out sequential indices 0, 1, 2, …. -/
theorem c2_index_stability (row : TableRow) :
    (extractRowCells row).map (fun c => c.col) =
      (_get_unique_cells_with_col row).map (fun p => p.1) ∧
    ((extractRowCells row).map (fun c => c.col)).toFinset =
      ((_get_unique_cells_with_col row).map (fun p => p.1)).toFinset := by
  have h := extractRowCellsAux_map_col row row [] 0
  exact ⟨h, by rw [extractRowCells, _get_unique_cells_with_col, h]⟩

/-! ## C6: the row classifier -/

/-- The row classifier exactly as claim C6 states it: rules evaluated in
order, first match wins — (1) row index < 2 and non-empty ratio
strictly above 0.3; (2) non-empty ratio at least 0.5 and at least two
non-empty cells containing a label keyword; (3) non-empty ratio at least
0.6 and the next row's empty ratio at least 0.5; otherwise data.  The
ratio comparisons are embedded by cross multiplication exactly as in
`_is_header_row`. -/
def isHeaderRowSpec (ri : Nat) (cells : List CellInfo) (all_rows : List RowInfo) : Bool :=
  let non_empty := cells.filter (fun c => !c.empty)
  let denom := max cells.length 1
  let labelCells :=
    (non_empty.filter (fun c => label_keywords.any (fun kw => strContainsSub c.text kw))).length
  if ri < 2 ∧ 10 * non_empty.length > 3 * denom then true
  else if 2 * non_empty.length ≥ denom ∧ 2 ≤ labelCells then true
  else if h : ri + 1 < all_rows.length then
    let next_cells := (all_rows.get ⟨ri + 1, h⟩).cells
    decide (10 * non_empty.length ≥ 6 * denom ∧
      2 * (next_cells.filter (fun c => c.empty)).length ≥ max next_cells.length 1)
  else false

/-- C6: `_is_header_row` is the pure, deterministic first-match-wins
rule chain of the claim; a fully-empty row is never a header — both
`_is_header_row` itself and the extraction pass (which short-circuits
fully-empty rows straight to `data_rows`) classify it as data. -/
theorem c6_row_classifier (ri : Nat) (cells : List CellInfo) (all_rows : List RowInfo) :
    _is_header_row ri cells all_rows = isHeaderRowSpec ri cells all_rows ∧
    ((∀ c ∈ cells, c.empty = true) → _is_header_row ri cells all_rows = false) ∧
    (∀ rd : RowInfo, (∀ c ∈ rd.cells, c.empty = true) → rowClassifiedHeader all_rows rd = false) := by
  refine ⟨?_, ?_, ?_⟩
  · unfold _is_header_row isHeaderRowSpec
    by_cases hA : ri < 2 ∧
        10 * (cells.filter (fun c => !c.empty)).length > 3 * max cells.length 1
    · simp [hA]
    · by_cases hB : 2 * (cells.filter (fun c => !c.empty)).length ≥ max cells.length 1
      · by_cases hC : 2 ≤ ((cells.filter (fun c => !c.empty)).filter
            (fun c => label_keywords.any (fun kw => strContainsSub c.text kw))).length
        · have hBC : 2 * (cells.filter (fun c => !c.empty)).length ≥ max cells.length 1 ∧
              2 ≤ ((cells.filter (fun c => !c.empty)).filter
                (fun c => label_keywords.any (fun kw => strContainsSub c.text kw))).length :=
            ⟨hB, hC⟩
          simp only [if_neg hA, if_pos hB, if_pos hC, if_pos hBC]
        · by_cases hD : ri + 1 < all_rows.length
          · simp only [if_neg hA, if_pos hB, if_neg hC, dif_pos hD,
              if_neg (fun h : _ ∧ _ => hC h.2)]
            congr 1
            rw [and_comm]
          · simp [hA, hB, hC, hD]
      · by_cases hD : ri + 1 < all_rows.length
        · have hF : ¬ (10 * (cells.filter (fun c => !c.empty)).length ≥
              6 * max cells.length 1) := by omega
          simp only [if_neg hA, if_neg hB, if_neg (fun h : _ ∧ _ => hB h.1), dif_pos hD]
          symm
          simp only [decide_eq_false_iff_not]
          intro hcontra
          exact hF hcontra.1
        · simp [hA, hB, hD]
  · intro hall
    have hne : cells.filter (fun c => !c.empty) = [] := by
      rw [List.filter_eq_nil]
      intro c hc
      simp [hall c hc]
    unfold _is_header_row
    rw [hne]
    have hd : 1 ≤ max cells.length 1 := le_max_right _ _
    simp only [List.length_nil]
    rw [if_neg (by omega), if_neg (by omega)]
  · intro rd hall
    unfold rowClassifiedHeader
    rw [if_pos]
    rw [List.length_eq_zero, List.filter_eq_nil]
    intro c hc
    simp [hall c hc]

/-- Witness for the hypotheses of `c6_row_classifier`: a fully-empty
one-cell row in any position is data. -/
theorem c6_row_classifier_witness :
    _is_header_row 0 [{ col := 0, text := "", span := none, empty := true }] [] = false ∧
    rowClassifiedHeader [] { row := 5, cells := [{ col := 0, text := "", span := none, empty := true }] } = false :=
  ⟨(c6_row_classifier 0 [{ col := 0, text := "", span := none, empty := true }] []).2.1
      (by decide),
   (c6_row_classifier 0 [] []).2.2
      { row := 5, cells := [{ col := 0, text := "", span := none, empty := true }] } (by decide)⟩

/-! ## Lookup lemmas about extracted structure descriptions -/

theorem extract_tables_length (doc : Doc) :
    (extract_docx_structure doc).tables.length = doc.tables.length := by
  simp [extract_docx_structure]

theorem extract_tables_get? (doc : Doc) (t : Nat) (tbl : DocTable)
    (h : doc.tables.get? t = some tbl) :
    (extract_docx_structure doc).tables.get? t = some (extractTableInfo t tbl) := by
  simp only [extract_docx_structure, List.get?_map, List.get?_enum, h]
  rfl

theorem extract_tables_idx (doc : Doc) (t : Nat) (ti : TableInfo)
    (h : (extract_docx_structure doc).tables.get? t = some ti) : ti.idx = t := by
  simp only [extract_docx_structure, List.get?_map, List.get?_enum] at h
  cases htbl : doc.tables.get? t with
  | none => rw [htbl] at h; cases h
  | some tbl =>
    rw [htbl] at h
    cases h
    rfl

theorem allRowsData_row_lt (tbl : DocTable) :
    ∀ rd ∈ allRowsData tbl, rd.row < tbl.rows.length := by
  intro rd hrd
  simp only [allRowsData, List.mem_map] at hrd
  obtain ⟨p, hp, hrdeq⟩ := hrd
  have := List.fst_lt_of_mem_enum hp
  rw [← hrdeq]
  exact this

theorem extractTableInfo_header_row_lt (t : Nat) (tbl : DocTable) :
    ∀ hr ∈ (extractTableInfo t tbl).header_rows, hr.row < tbl.rows.length := by
  intro hr hmem
  have : hr ∈ allRowsData tbl := by
    have := List.mem_of_mem_filter (p := fun rd => rowClassifiedHeader (allRowsData tbl) rd) hmem
    exact this
  exact allRowsData_row_lt tbl hr this

/-- In the extracted table list, `idx` equals position, so the (reverse,
i.e. last-write-wins) search of `header_rows_by_table` finds exactly the
table at the queried position. -/
theorem find_idx_positional (l : List TableInfo)
    (hidx : ∀ (k : Nat) (ti : TableInfo), l.get? k = some ti → ti.idx = k)
    (n : Nat) (ti : TableInfo) (hn : l.get? n = some ti) :
    l.reverse.find? (fun x => (x.idx : Int) == ((n : Nat) : Int)) = some ti := by
  have hlen : n < l.length := by
    by_contra hc
    rw [List.get?_eq_none.mpr (by omega)] at hn
    cases hn
  have hget : l.get ⟨n, hlen⟩ = ti := by
    have := List.get?_eq_get hlen
    rw [this] at hn
    exact Option.some_inj.mp hn
  have hdecomp : l = l.take n ++ ti :: l.drop (n + 1) := by
    conv_lhs => rw [← List.take_append_drop n l]
    rw [List.drop_eq_get_cons hlen, hget]
  have hrev : l.reverse = (l.drop (n + 1)).reverse ++ ti :: (l.take n).reverse := by
    conv_lhs => rw [hdecomp]
    simp
  rw [hrev, List.find?_append]
  have hnone : (l.drop (n + 1)).reverse.find?
      (fun x => (x.idx : Int) == ((n : Nat) : Int)) = none := by
    rw [List.find?_eq_none]
    intro x hx
    rw [List.mem_reverse] at hx
    obtain ⟨j, hj⟩ := List.mem_iff_get?.mp hx
    rw [List.get?_drop] at hj
    have := hidx (n + 1 + j) x hj
    simp only [beq_iff_eq]
    intro hcontra
    have : ((n + 1 + j : Nat) : Int) = (n : Int) := by rw [← this]; exact_mod_cast hcontra
    omega
  rw [hnone]
  simp only [Option.or]
  rw [List.find?_cons_of_pos]
  have : ti.idx = n := hidx n ti hn
  simp [this]

theorem headerRowsByTable_extract (doc : Doc) (t : Nat) (tbl : DocTable)
    (h : doc.tables.get? t = some tbl) :
    headerRowsByTable (extract_docx_structure doc).tables ((t : Nat) : Int) =
      some ((extractTableInfo t tbl).header_rows.map (fun hr => hr.row)) := by
  unfold headerRowsByTable
  rw [find_idx_positional (extract_docx_structure doc).tables
    (fun k ti hk => extract_tables_idx doc k ti hk) t (extractTableInfo t tbl)
    (extract_tables_get? doc t tbl h)]
  rfl

/-! ## C4: the validator's table_idx range check -/

def exTc (i : Nat) (s : String) : Tc := { tcId := i, paras := [[s]] }

/-- A one-table example document: 3x3 table, row 0 a header row
("기간" | "회사" | "직책"), rows 1 and 2 empty data rows. -/
def exDoc : Doc :=
  { paragraphs := [{ style := "Normal", runs := ["Test Document"] }],
    tables := [{ gridCols := 3,
                 rows := [[exTc 1 "기간", exTc 2 "회사", exTc 3 "직책"],
                          [exTc 4 "", exTc 5 "", exTc 6 ""],
                          [exTc 7 "", exTc 8 "", exTc 9 ""]] }] }

/-- C4 counterexample: a table-fill item with `table_idx = -1` lies
outside `[0, len(tables))` (the document has exactly one table), yet
`validate_fill_plan` returns no error at all — the code checks only the
upper bound `table_idx >= len(tables)`, and the later checks resolve the
negative index by Python indexing. -/
theorem c4_counterexample :
    (-1 : Int) < 0 ∧
    (extract_docx_structure exDoc).tables.length = 1 ∧
    validate_fill_plan (extract_docx_structure exDoc)
      { fill_plan := [.tableFill (some (-1)) (some 1)
          [{ col := some 0, value := some "x" }]] } = .ok [] := by
  refine ⟨by decide, by rfl, by rfl⟩

theorem validateFills_no_tableIdxRange (i : Nat) (t r : Int) (vc : Option (List Nat)) :
    ∀ (fills : List FillEntry) (seen : List (Int × Int × Int)) (j : Nat) (ti : Int) (n : Nat),
      VError.tableIdxRange j ti n ∉ (validateFills i t r vc seen fills).1 := by
  intro fills
  induction fills with
  | nil => intro seen j ti n h; simp [validateFills] at h
  | cons fe rest ih =>
    intro seen j ti n
    simp only [validateFills]
    cases fe.col with
    | none => exact ih seen j ti n
    | some col =>
      intro hmem
      simp only [List.mem_append] at hmem
      rcases hmem with (h1 | h2) | h3
      · by_cases hk : (t, r, col) ∈ seen <;> simp [hk] at h1
      · cases vc with
        | none => simp at h2
        | some vcl =>
          by_cases hv : vcl.any (fun c => (c : Int) == col) <;> simp [hv] at h2
      · exact absurd h3 (ih _ j ti n)

/-- C4 (amended): the validator flags a `table_idx` range error exactly
when `table_idx >= len(tables)`.  A merely negative `table_idx` produces
no range error: values in `[-len, 0)` fall through to Python negative
indexing in the later checks, and values below `-len` make the validator
raise `IndexError` rather than return an error string. -/
theorem c4_table_idx_range (sd : StructureDesc) (tidxOpt rowOpt : Option Int)
    (fills : List FillEntry) :
    (tidxOpt.getD 0 ≥ (sd.tables.length : Int) →
      validate_fill_plan sd { fill_plan := [.tableFill tidxOpt rowOpt fills] } =
        .ok [VError.tableIdxRange 0 (tidxOpt.getD 0) sd.tables.length]) ∧
    (tidxOpt.getD 0 < (sd.tables.length : Int) →
      ∀ errs, validate_fill_plan sd { fill_plan := [.tableFill tidxOpt rowOpt fills] } =
          .ok errs →
        ∀ (j : Nat) (ti : Int) (n : Nat), VError.tableIdxRange j ti n ∉ errs) := by
  constructor
  · intro hge
    simp only [validate_fill_plan, validateItems, if_pos hge]
    rfl
  · intro hlt errs heq
    simp only [validate_fill_plan, validateItems, if_neg (not_le.mpr hlt)] at heq
    cases rowOpt with
    | none =>
      dsimp only at heq
      simp only [Except.map] at heq
      cases heq
      intro j ti n hmem
      simp at hmem
    | some row =>
      dsimp only at heq
      by_cases hh : ((headerRowsByTable sd.tables (tidxOpt.getD 0)).getD []).any
          (fun h => (h : Int) == row)
      · rw [if_pos hh] at heq
        simp only [Except.map] at heq
        cases heq
        intro j ti n hmem
        simp at hmem
      · rw [if_neg hh] at heq
        cases hget : pyGet sd.tables (tidxOpt.getD 0) with
        | none => rw [hget] at heq; cases heq
        | some tinfo =>
          rw [hget] at heq
          dsimp only at heq
          by_cases hr : row ≥ (tinfo.rows : Int) + (MAX_ADD_ROWS : Int)
          · rw [if_pos hr] at heq
            simp only [Except.map] at heq
            cases heq
            intro j ti n hmem
            simp at hmem
          · rw [if_neg hr] at heq
            simp only [Except.map] at heq
            cases heq
            intro j ti n hmem
            simp only [List.append_nil] at hmem
            exact absurd hmem (validateFills_no_tableIdxRange 0 _ _ _ fills [] j ti n)

/-- Witness for `c4_table_idx_range`: with the one-table example
document, `table_idx = 5` yields exactly the range error, and an
in-range item's error list (here `row` missing) has no range error. -/
theorem c4_table_idx_range_witness :
    validate_fill_plan (extract_docx_structure exDoc)
      { fill_plan := [.tableFill (some 5) (some 1) []] } =
      .ok [VError.tableIdxRange 0 5 1] ∧
    (∀ (j : Nat) (ti : Int) (n : Nat),
      VError.tableIdxRange j ti n ∉ ([VError.rowMissing 0] : List VError)) := by
  constructor
  · have h := (c4_table_idx_range (extract_docx_structure exDoc) (some 5) (some 1) []).1
      (by rw [extract_tables_length]; decide)
    rw [h]
    rfl
  · exact fun j ti n => (c4_table_idx_range (extract_docx_structure exDoc) (some 0) none []).2
      (by rw [extract_tables_length]; decide) [VError.rowMissing 0] (by rfl) j ti n

/-! ## Executor support lemmas (row growth and unique-cell counts) -/

/-- Number of merge-deduplicated cells of a row. -/
def uqCount (row : TableRow) : Nat := (_get_unique_cells_with_col row).length

/-- The dedup walk is invariant under renaming cell identities by any
function injective on the ids involved. -/
theorem uniqueAux_length_map (f : Nat → Nat) (g : Tc → Tc)
    (hg : ∀ tc, (g tc).tcId = f tc.tcId) (dom : List Nat)
    (hinj : ∀ a ∈ dom, ∀ b ∈ dom, f a = f b → a = b) :
    ∀ (cells : List Tc) (seen : List Nat) (k : Nat),
      (∀ tc ∈ cells, tc.tcId ∈ dom) → (∀ s ∈ seen, s ∈ dom) →
      (_get_unique_cells_with_colAux (seen.map f) k (cells.map g)).length =
        (_get_unique_cells_with_colAux seen k cells).length := by
  intro cells
  induction cells with
  | nil => intro seen k _ _; rfl
  | cons tc rest ih =>
    intro seen k hc hs
    have hdomtc : tc.tcId ∈ dom := hc tc (by simp)
    by_cases h : tc.tcId ∈ seen
    · have hms : (g tc).tcId ∈ seen.map f := by rw [hg]; exact List.mem_map_of_mem f h
      simp only [List.map_cons, _get_unique_cells_with_colAux, if_pos h, if_pos hms]
      exact ih seen k (fun x hx => hc x (List.mem_cons_of_mem _ hx)) hs
    · have hms : (g tc).tcId ∉ seen.map f := by
        rw [hg]
        intro hmem
        obtain ⟨b, hb, hfb⟩ := List.mem_map.mp hmem
        rw [hinj b (hs b hb) tc.tcId hdomtc hfb] at hb
        exact h hb
      simp only [List.map_cons, _get_unique_cells_with_colAux, if_neg h, if_neg hms,
        List.length_cons]
      have hseen : (g tc).tcId :: seen.map f = (tc.tcId :: seen).map f := by
        rw [List.map_cons, hg]
      rw [hseen, ih (tc.tcId :: seen) (k + 1)
        (fun x hx => hc x (List.mem_cons_of_mem _ hx))
        (fun s hsm => by
          rcases List.mem_cons.mp hsm with hh | hh
          · rw [hh]; exact hdomtc
          · exact hs s hh)]

/-- Cloning a row with fresh ids keeps its merge-deduplicated cell
count. -/
theorem uqCount_clone (base : Nat) (row : TableRow) :
    uqCount (cloneRowCleared base row) = uqCount row := by
  unfold uqCount _get_unique_cells_with_col cloneRowCleared
  have h := uniqueAux_length_map (fun id => base + rowFirstIdxOf row id)
    (fun tc => { tcId := base + rowFirstIdxOf row tc.tcId,
                 paras := tc.paras.map (fun p => p.map (fun _ => "")) })
    (fun tc => rfl) (row.map (fun tc => tc.tcId))
    (fun a ha b hb hab => by
      have ha2 := List.indexOf_get? ha
      have hb2 := List.indexOf_get? hb
      unfold rowFirstIdxOf at hab
      simp only at hab
      have : (row.map (fun tc => tc.tcId)).indexOf a = (row.map (fun tc => tc.tcId)).indexOf b := by
        omega
      rw [this, hb2] at ha2
      exact (Option.some_inj.mp ha2).symm)
    row [] 0 (fun tc htc => List.mem_map_of_mem _ htc) (fun s hs => absurd hs (List.not_mem_nil s))
  exact h

theorem unique_keys_range (row : TableRow) :
    (_get_unique_cells_with_col row).map (fun p => p.1) = List.range' 0 (uqCount row) :=
  uniqueAux_map_fst row [] 0

/-- A column index in `[0, uqCount row)` always resolves against the
executor's unique-cell mapping. -/
theorem unique_find?_isSome (row : TableRow) (col : Int) (h0 : 0 ≤ col)
    (hlt : col < (uqCount row : Int)) :
    ∃ p, (_get_unique_cells_with_col row).find? (fun p => (p.1 : Int) == col) = some p := by
  have hkey : col.toNat ∈ (_get_unique_cells_with_col row).map (fun p => p.1) := by
    rw [unique_keys_range]
    have : col.toNat < uqCount row := by omega
    simp [List.mem_range']
    omega
  obtain ⟨p, hp, hfst⟩ := List.mem_map.mp hkey
  have hsome : ((_get_unique_cells_with_col row).find? (fun p => (p.1 : Int) == col)).isSome := by
    rw [List.find?_isSome]
    refine ⟨p, hp, ?_⟩
    simp only [beq_iff_eq, hfst]
    omega
  obtain ⟨q, hq⟩ := Option.isSome_iff_exists.mp hsome
  exact ⟨q, hq⟩

theorem pyGet_coe (l : List α) (n : Nat) (h : n < l.length) :
    pyGet l ((n : Nat) : Int) = l.get? n := by
  unfold pyGet pyIdx
  rw [if_pos ⟨Int.ofNat_nonneg n, by exact_mod_cast h⟩]
  simp

/-- For an extracted structure, no `valid_cols_by_row` entry matches a
row index at or beyond the table's row count. -/
theorem validColsByRow_extract_none (doc : Doc) (t : Nat) (tbl : DocTable)
    (ht : doc.tables.get? t = some tbl) (row : Int)
    (hrow : (tbl.rows.length : Int) ≤ row) :
    validColsByRow (extract_docx_structure doc).tables ((t : Nat) : Int) row = none := by
  unfold validColsByRow
  rw [List.find?_eq_none.mpr]
  · rfl
  · intro p hp
    rw [List.mem_reverse, List.mem_join] at hp
    obtain ⟨l, hl, hpl⟩ := hp
    rw [List.mem_map] at hl
    obtain ⟨ti, hti, rfl⟩ := hl
    rw [List.mem_map] at hpl
    obtain ⟨rd, hrd, rfl⟩ := hpl
    simp only [Bool.and_eq_true, beq_iff_eq, not_and]
    intro hidx
    obtain ⟨k, hk⟩ := List.mem_iff_get?.mp hti
    have hik : ti.idx = k := extract_tables_idx doc k ti hk
    have hkt : k = t := by
      have : ((ti.idx : Nat) : Int) = (t : Int) := hidx
      rw [hik] at this
      exact_mod_cast this
    rw [hkt] at hk
    rw [extract_tables_get? doc t tbl ht] at hk
    cases hk
    have hrdmem : rd ∈ allRowsData tbl := by
      rcases List.mem_append.mp hrd with hh | hh
      · exact List.mem_of_mem_filter hh
      · exact List.mem_of_mem_filter hh
    have := allRowsData_row_lt tbl rd hrdmem
    intro hcontra
    omega

/-! ## Identity bookkeeping for the executor -/

theorem le_foldr_max (l : List Nat) : ∀ x ∈ l, x ≤ l.foldr max 0 := by
  induction l with
  | nil => intro x hx; cases hx
  | cons a rest ih =>
    intro x hx
    rcases List.mem_cons.mp hx with h | h
    · rw [h, List.foldr_cons]
      exact le_max_left _ _
    · rw [List.foldr_cons]
      exact le_trans (ih x h) (le_max_right _ _)

theorem mem_docTcIds (doc : Doc) (s : Nat) (tbl : DocTable) (row : TableRow) (tc : Tc)
    (hs : doc.tables.get? s = some tbl) (hrow : row ∈ tbl.rows) (htc : tc ∈ row) :
    tc.tcId ∈ docTcIds doc := by
  unfold docTcIds
  rw [List.mem_join]
  refine ⟨(tbl.rows.map (fun r => r.map (fun tc => tc.tcId))).join, ?_, ?_⟩
  · rw [List.mem_map]
    exact ⟨tbl, List.get?_mem hs, rfl⟩
  · rw [List.mem_join]
    exact ⟨row.map (fun tc => tc.tcId), List.mem_map_of_mem _ hrow, List.mem_map_of_mem _ htc⟩

theorem mem_docTcIds_iff (doc : Doc) (x : Nat) :
    x ∈ docTcIds doc ↔ ∃ tbl ∈ doc.tables, ∃ row ∈ tbl.rows, ∃ tc ∈ row, tc.tcId = x := by
  unfold docTcIds
  constructor
  · intro h
    rw [List.mem_join] at h
    obtain ⟨l, hl, hx⟩ := h
    rw [List.mem_map] at hl
    obtain ⟨tbl, htbl, rfl⟩ := hl
    rw [List.mem_join] at hx
    obtain ⟨l2, hl2, hx2⟩ := hx
    rw [List.mem_map] at hl2
    obtain ⟨row, hrow, rfl⟩ := hl2
    rw [List.mem_map] at hx2
    obtain ⟨tc, htc, rfl⟩ := hx2
    exact ⟨tbl, htbl, row, hrow, tc, htc, rfl⟩
  · intro h
    obtain ⟨tbl, htbl, row, hrow, tc, htc, rfl⟩ := h
    rw [List.mem_join]
    refine ⟨_, List.mem_map_of_mem _ htbl, ?_⟩
    rw [List.mem_join]
    exact ⟨_, List.mem_map_of_mem _ hrow, List.mem_map_of_mem _ htc⟩

theorem docTcIds_set_append (doc : Doc) (t : Nat) (tbl : DocTable) (newRow : TableRow)
    (g : Nat) (ht : doc.tables.get? t = some tbl) :
    ∀ x ∈ docTcIds doc,
      x ∈ docTcIds (Doc.mk doc.paragraphs
        (doc.tables.set t (DocTable.mk g (tbl.rows ++ [newRow])))) := by
  have htl : t < doc.tables.length := by
    by_contra hc
    rw [List.get?_eq_none.mpr (by omega)] at ht
    cases ht
  intro x hx
  rw [mem_docTcIds_iff] at hx ⊢
  obtain ⟨tblB, htblB, row, hrow, tc, htc, rfl⟩ := hx
  obtain ⟨s, hs⟩ := List.mem_iff_get?.mp htblB
  by_cases hst : s = t
  · subst hst
    rw [hs] at ht
    cases ht
    refine ⟨DocTable.mk g (tbl.rows ++ [newRow]), ?_, row, ?_, tc, htc, rfl⟩
    · exact List.get?_mem (by dsimp only; exact List.get?_set_eq_of_lt _ htl)
    · exact List.mem_append_left _ hrow
  · refine ⟨tblB, ?_, row, hrow, tc, htc, rfl⟩
    refine List.get?_mem (n := s) ?_
    dsimp only
    rw [List.get?_set_ne _ _ (fun h => hst h.symm)]
    exact hs

theorem cloneRowCleared_id_ge (base : Nat) (row : TableRow) :
    ∀ tc ∈ cloneRowCleared base row, base ≤ tc.tcId := by
  intro tc htc
  unfold cloneRowCleared at htc
  rw [List.mem_map] at htc
  obtain ⟨tc0, _, rfl⟩ := htc
  exact Nat.le_add_right _ _

/-- The one-step effect of `_add_table_row`. -/
theorem add_table_row_eq (doc : Doc) (t : Nat) (tbl : DocTable) (last : TableRow)
    (ht : doc.tables.get? t = some tbl) (hlast : tbl.rows.getLast? = some last) :
    _add_table_row doc t = .ok
      (Doc.mk doc.paragraphs
        (doc.tables.set t (DocTable.mk tbl.gridCols
          (tbl.rows ++ [cloneRowCleared (docMaxTcId doc + 1) last])))) := by
  unfold _add_table_row
  rw [ht]
  dsimp only
  rw [hlast]

/-- Behaviour of the row-adding loop of `_execute_table_fill`: it
appends cleared clones of the (running) last row until the target row
index exists or the fuel (`MAX_ADD_ROWS`) is spent, never touching the
rows that already existed, and every appended row keeps the
merge-deduplicated cell count of the original last row. -/
theorem addRowsLoop_spec (t : Nat) (row : Int) :
    ∀ (fuel : Nat) (doc : Doc) (tbl : DocTable),
      doc.tables.get? t = some tbl → tbl.rows ≠ [] →
      ∃ doc2 tbl2,
        addRowsLoop doc t row fuel = .ok doc2 ∧
        doc2.tables.get? t = some tbl2 ∧
        tbl2.rows ≠ [] ∧
        tbl2.rows.length =
          (if row < (tbl.rows.length : Int) then tbl.rows.length
           else min (tbl.rows.length + fuel) (row.toNat + 1)) ∧
        (∀ j, j < tbl.rows.length → tbl2.rows.get? j = tbl.rows.get? j) ∧
        (∀ j r, tbl.rows.length ≤ j → tbl2.rows.get? j = some r →
          uqCount r = uqCount (tbl.rows.getLastD [])) ∧
        uqCount (tbl2.rows.getLastD []) = uqCount (tbl.rows.getLastD []) ∧
        doc2.paragraphs = doc.paragraphs ∧
        doc2.tables.length = doc.tables.length ∧
        (∀ s, s ≠ t → doc2.tables.get? s = doc.tables.get? s) ∧
        (∀ j r, tbl.rows.length ≤ j → tbl2.rows.get? j = some r →
          ∀ tc ∈ r, ∀ x ∈ docTcIds doc, x < tc.tcId) ∧
        (∀ x ∈ docTcIds doc, x ∈ docTcIds doc2) := by
  intro fuel
  induction fuel with
  | zero =>
    intro doc tbl ht hne
    refine ⟨doc, tbl, rfl, ht, hne, ?_, fun j _ => rfl, ?_, rfl, rfl, rfl,
      fun s _ => rfl, ?_, fun x hx => hx⟩
    · by_cases h : row < (tbl.rows.length : Int)
      · rw [if_pos h]
      · rw [if_neg h]
        omega
    · intro j r hj hr
      rw [List.get?_eq_none.mpr hj] at hr
      cases hr
    · intro j r hj hr
      rw [List.get?_eq_none.mpr hj] at hr
      cases hr
  | succ n ih =>
    intro doc tbl ht hne
    by_cases hbranch : row ≥ (tbl.rows.length : Int)
    · cases hlast : tbl.rows.getLast? with
      | none => exact absurd (List.getLast?_eq_none_iff.mp hlast) hne
      | some last =>
        have hlastD : tbl.rows.getLastD [] = last := by
          rw [List.getLastD_eq_getLast?, hlast]
          rfl
        have htlt : t < doc.tables.length := by
          by_contra hc
          rw [List.get?_eq_none.mpr (by omega)] at ht
          cases ht
        have hadd := add_table_row_eq doc t tbl last ht hlast
        have ht2 : (Doc.mk doc.paragraphs
            (doc.tables.set t (DocTable.mk tbl.gridCols
              (tbl.rows ++ [cloneRowCleared (docMaxTcId doc + 1) last])))).tables.get? t =
            some (DocTable.mk tbl.gridCols
              (tbl.rows ++ [cloneRowCleared (docMaxTcId doc + 1) last])) := by
          dsimp only
          exact List.get?_set_eq_of_lt _ htlt
        have hne2a : (DocTable.mk tbl.gridCols
            (tbl.rows ++ [cloneRowCleared (docMaxTcId doc + 1) last])).rows ≠ [] := by
          simp
        obtain ⟨doc2, tbl2, hloop, hget2, hne2, hlen2, hpre2, happ2, hlastuq2,
          hpar2, htlen2, hoth2, hfresh2, hsub2⟩ :=
          ih _ _ ht2 hne2a
        have hnewlastD : (tbl.rows ++ [cloneRowCleared (docMaxTcId doc + 1) last]).getLastD [] =
            cloneRowCleared (docMaxTcId doc + 1) last := by
          rw [List.getLastD_eq_getLast?]
          simp
        have huqnew : uqCount (cloneRowCleared (docMaxTcId doc + 1) last) =
            uqCount (tbl.rows.getLastD []) := by
          rw [uqCount_clone, hlastD]
        have hrowsmk : (DocTable.mk tbl.gridCols
            (tbl.rows ++ [cloneRowCleared (docMaxTcId doc + 1) last])).rows =
            tbl.rows ++ [cloneRowCleared (docMaxTcId doc + 1) last] := rfl
        rw [hrowsmk] at hlen2 hpre2 happ2 hlastuq2 hfresh2
        have hsubstep : ∀ x ∈ docTcIds doc,
            x ∈ docTcIds (Doc.mk doc.paragraphs
              (doc.tables.set t (DocTable.mk tbl.gridCols
                (tbl.rows ++ [cloneRowCleared (docMaxTcId doc + 1) last])))) :=
          docTcIds_set_append doc t tbl _ tbl.gridCols ht
        refine ⟨doc2, tbl2, ?_, hget2, hne2, ?_, ?_, ?_, ?_, ?_, ?_, ?_, ?_, ?_⟩
        · unfold addRowsLoop
          rw [ht]
          dsimp only
          rw [if_pos hbranch, hadd]
          exact hloop
        · rw [if_neg (not_lt.mpr hbranch)]
          rw [hlen2]
          simp only [List.length_append, List.length_cons, List.length_nil]
          split
          · omega
          · omega
        · intro j hj
          rw [hpre2 j (by simp only [List.length_append, List.length_cons,
              List.length_nil]; omega)]
          exact List.get?_append (by omega)
        · intro j r hj hr
          by_cases hjl : j < tbl.rows.length + 1
          · have hj2 : j = tbl.rows.length := by omega
            rw [hpre2 j (by simp only [List.length_append, List.length_cons,
                List.length_nil]; omega)] at hr
            rw [hj2] at hr
            rw [List.get?_concat_length] at hr
            cases hr
            exact huqnew
          · have := happ2 j r (by simp only [List.length_append, List.length_cons,
                List.length_nil]; omega) hr
            rw [this, hnewlastD]
            exact huqnew
        · rw [hlastuq2, hnewlastD]
          exact huqnew
        · exact hpar2
        · rw [htlen2]
          dsimp only
          exact List.length_set _ _ _
        · intro s hst
          rw [hoth2 s hst]
          dsimp only
          exact List.get?_set_ne _ _ (fun h => hst h.symm)
        · intro j r hj hr tc htc x hx
          by_cases hjl : j < tbl.rows.length + 1
          · have hj2 : j = tbl.rows.length := by omega
            rw [hpre2 j (by simp only [List.length_append, List.length_cons,
                List.length_nil]; omega)] at hr
            rw [hj2] at hr
            rw [List.get?_concat_length] at hr
            cases hr
            have h1 : docMaxTcId doc + 1 ≤ tc.tcId :=
              cloneRowCleared_id_ge (docMaxTcId doc + 1) last tc htc
            have h2 : x ≤ docMaxTcId doc := le_foldr_max (docTcIds doc) x hx
            omega
          · exact hfresh2 j r (by simp only [List.length_append, List.length_cons,
                List.length_nil]; omega) hr tc htc x (hsubstep x hx)
        · intro x hx
          exact hsub2 x (hsubstep x hx)
    · refine ⟨doc, tbl, ?_, ht, hne, ?_, fun j _ => rfl, ?_, rfl, rfl, rfl,
        fun s _ => rfl, ?_, fun x hx => hx⟩
      · unfold addRowsLoop
        rw [ht]
        dsimp only
        rw [if_neg hbranch]
      · rw [if_pos (by omega)]
      · intro j r hj hr
        rw [List.get?_eq_none.mpr hj] at hr
        cases hr
      · intro j r hj hr
        rw [List.get?_eq_none.mpr hj] at hr
        cases hr

theorem pyIdx_coe (n t : Nat) (h : t < n) : pyIdx n ((t : Nat) : Int) = some t := by
  unfold pyIdx
  rw [if_pos ⟨Int.ofNat_nonneg t, by exact_mod_cast h⟩]
  simp

/-- Any row index at or beyond the table's row count fails the header
membership test of the validator (extracted header rows all lie below
the row count). -/
theorem header_any_false (doc : Doc) (t : Nat) (tbl : DocTable)
    (ht : doc.tables.get? t = some tbl) (r : Int)
    (hr : (tbl.rows.length : Int) ≤ r) :
    (((headerRowsByTable (extract_docx_structure doc).tables ((t : Nat) : Int)).getD []).any
      (fun h => (h : Int) == r)) = false := by
  rw [headerRowsByTable_extract doc t tbl ht]
  rw [List.any_eq_false]
  intro x hx
  rw [Option.getD_some] at hx
  obtain ⟨hrw, hmem, rfl⟩ := List.mem_map.mp hx
  have := extractTableInfo_header_row_lt t tbl hrw hmem
  simp only [beq_iff_eq]
  omega

/-! ## C3: the row-cap boundary -/

/-- C3: with `MAX_ADD_ROWS = 20`, (a) a table-fill item whose `row` is
at or beyond `table.rows + 20` is rejected by the validator with exactly
the range error; (b) during execution such an item fails — every fill in
it is counted failed — and the table grows by exactly `MAX_ADD_ROWS`
rows rather than unboundedly; (c) the boundary item
`row = table.rows + 20 - 1` passes the validator (no error at all for a
single fill of a valid column), and (d) the executor appends cleared
clones of the last row until the row exists, so the fill succeeds. -/
theorem c3_row_cap (doc : Doc) (t : Nat) (tbl : DocTable)
    (ht : doc.tables.get? t = some tbl) (hne : tbl.rows ≠ [])
    (fills : List FillEntry) (row : Int)
    (hbig : row ≥ (tbl.rows.length : Int) + (MAX_ADD_ROWS : Int))
    (col : Int) (v : String)
    (hcol0 : 0 ≤ col) (hcol : col < (uqCount (tbl.rows.getLastD []) : Int))
    (hv : ¬ v = "") :
    (validate_fill_plan (extract_docx_structure doc)
        { fill_plan := [.tableFill (some ((t : Nat) : Int)) (some row) fills] } =
      .ok [VError.rowRange 0 row tbl.rows.length MAX_ADD_ROWS]) ∧
    (∃ doc2 tbl2, _execute_table_fill doc (some ((t : Nat) : Int)) (some row) fills =
        .ok (doc2, 0, fills.length) ∧ doc2.tables.get? t = some tbl2 ∧
        tbl2.rows.length = tbl.rows.length + MAX_ADD_ROWS) ∧
    (validate_fill_plan (extract_docx_structure doc)
        { fill_plan := [.tableFill (some ((t : Nat) : Int))
            (some ((tbl.rows.length : Int) + (MAX_ADD_ROWS : Int) - 1))
            [{ col := some col, value := some v }]] } = .ok []) ∧
    (∃ doc3, _execute_table_fill doc (some ((t : Nat) : Int))
        (some ((tbl.rows.length : Int) + (MAX_ADD_ROWS : Int) - 1))
        [{ col := some col, value := some v }] = .ok (doc3, 1, 0)) := by
  have htlt : t < doc.tables.length := by
    by_contra hc
    rw [List.get?_eq_none.mpr (by omega)] at ht
    cases ht
  have hsdlen : (extract_docx_structure doc).tables.length = doc.tables.length :=
    extract_tables_length doc
  have hnotge : ¬ (((t : Nat) : Int) ≥ ((extract_docx_structure doc).tables.length : Int)) := by
    rw [hsdlen]
    omega
  have hM : (MAX_ADD_ROWS : Int) = 20 := rfl
  have hMn : MAX_ADD_ROWS = 20 := rfl
  have hrows : (extractTableInfo t tbl).rows = tbl.rows.length := rfl
  refine ⟨?_, ?_, ?_, ?_⟩
  · -- (a) validator rejects with the range error
    simp only [validate_fill_plan, validateItems, Option.getD_some]
    rw [if_neg hnotge]
    rw [header_any_false doc t tbl ht row (by omega)]
    simp only [Bool.false_eq_true, if_false]
    rw [pyGet_coe _ _ (by rw [hsdlen]; exact htlt)]
    rw [extract_tables_get? doc t tbl ht]
    simp only [hrows]
    rw [if_pos hbig]
    rfl
  · -- (b) executor fails every fill, table grown by exactly MAX_ADD_ROWS
    obtain ⟨doc2, tbl2, hloop, hget2, hne2, hlen2, hpre2, happ2, hlastuq2, -, -, -, -, -⟩ :=
      addRowsLoop_spec t row MAX_ADD_ROWS doc tbl ht hne
    have hlen2e : tbl2.rows.length = tbl.rows.length + MAX_ADD_ROWS := by
      rw [hlen2, if_neg (by omega)]
      omega
    refine ⟨doc2, tbl2, ?_, hget2, hlen2e⟩
    unfold _execute_table_fill
    rw [if_neg (by
      intro hor
      rcases hor with hh | hh
      · simp only [Option.getD_some] at hh; omega
      · cases hh)]
    simp only [Option.getD_some, pyIdx_coe _ _ htlt, hloop, hget2]
    rw [if_pos (by rw [hlen2e]; omega)]
  · -- (c) the boundary row passes validation with no error
    simp only [validate_fill_plan, validateItems, Option.getD_some]
    rw [if_neg hnotge]
    rw [header_any_false doc t tbl ht _ (by omega)]
    simp only [Bool.false_eq_true, if_false]
    rw [pyGet_coe _ _ (by rw [hsdlen]; exact htlt)]
    rw [extract_tables_get? doc t tbl ht]
    simp only [hrows]
    rw [if_neg (by omega)]
    rw [validColsByRow_extract_none doc t tbl ht _ (by omega)]
    simp only [validateFills, List.not_mem_nil, if_neg (fun h => h), List.nil_append]
    rfl
  · -- (d) the executor appends rows until the boundary row exists and fills it
    obtain ⟨doc2, tbl2, hloop, hget2, hne2, hlen2, hpre2, happ2, hlastuq2, -, -, -, -, -⟩ :=
      addRowsLoop_spec t ((tbl.rows.length : Int) + (MAX_ADD_ROWS : Int) - 1)
        MAX_ADD_ROWS doc tbl ht hne
    have hnelen : 1 ≤ tbl.rows.length := by
      cases hrows2 : tbl.rows with
      | nil => exact absurd hrows2 hne
      | cons a l => simp [hrows2]
    have htonat : ((tbl.rows.length : Int) + (MAX_ADD_ROWS : Int) - 1).toNat =
        tbl.rows.length + MAX_ADD_ROWS - 1 := by
      rw [hM, hMn]
      omega
    have hlen2e : tbl2.rows.length = tbl.rows.length + MAX_ADD_ROWS := by
      rw [hlen2, if_neg (by rw [hM]; omega), htonat, hMn]
      omega
    have hridx : tbl2.rows.get? (tbl.rows.length + MAX_ADD_ROWS - 1) ≠ none := by
      rw [Ne, List.get?_eq_none]
      rw [hlen2e]
      omega
    cases hrow : tbl2.rows.get? (tbl.rows.length + MAX_ADD_ROWS - 1) with
    | none => exact absurd hrow hridx
    | some r =>
      have huqr : uqCount r = uqCount (tbl.rows.getLastD []) := by
        refine happ2 _ r (by rw [hMn]; omega) hrow
      obtain ⟨p, hfind⟩ := unique_find?_isSome r col hcol0 (by rw [huqr]; exact hcol)
      refine ⟨_set_cell_text doc2 p.2.tcId (_strip_md v), ?_⟩
      unfold _execute_table_fill
      rw [if_neg (by
        intro hor
        rcases hor with hh | hh
        · simp only [Option.getD_some] at hh; omega
        · cases hh)]
      simp only [Option.getD_some, pyIdx_coe _ _ htlt, hloop, hget2]
      rw [if_neg (by rw [hlen2e, hM, hMn]; omega)]
      have hpy : pyGet tbl2.rows ((tbl.rows.length : Int) + (MAX_ADD_ROWS : Int) - 1) =
          some r := by
        have hcast : ((tbl.rows.length : Int) + (MAX_ADD_ROWS : Int) - 1) =
            ((tbl.rows.length + MAX_ADD_ROWS - 1 : Nat) : Int) := by
          rw [hM, hMn]
          omega
        rw [hcast, pyGet_coe _ _ (by rw [hlen2e, hMn]; omega)]
        rw [hMn] at hrow ⊢
        exact hrow
      rw [hpy]
      unfold execFills
      simp only [Option.getD_some]
      rw [if_neg hv, hfind]
      rfl

/-- Witness for `c3_row_cap`: the 3-row example table with a plan
targeting row 23 = 3 + 20 (rejected, all fills failed, table grown to
23 rows) and row 22 = 3 + 20 - 1 (validates clean and fills). -/
theorem c3_row_cap_witness :
    (validate_fill_plan (extract_docx_structure exDoc)
        { fill_plan := [.tableFill (some ((0 : Nat) : Int)) (some 23)
            [{ col := some 0, value := some "y" }]] } =
      .ok [VError.rowRange 0 23 3 MAX_ADD_ROWS]) ∧
    (∃ doc2 tbl2, _execute_table_fill exDoc (some ((0 : Nat) : Int)) (some 23)
        [{ col := some 0, value := some "y" }] = .ok (doc2, 0, 1) ∧
        doc2.tables.get? 0 = some tbl2 ∧ tbl2.rows.length = 3 + MAX_ADD_ROWS) ∧
    (validate_fill_plan (extract_docx_structure exDoc)
        { fill_plan := [.tableFill (some ((0 : Nat) : Int))
            (some (((3 : Nat) : Int) + (MAX_ADD_ROWS : Int) - 1))
            [{ col := some 0, value := some "x" }]] } = .ok []) ∧
    (∃ doc3, _execute_table_fill exDoc (some ((0 : Nat) : Int))
        (some (((3 : Nat) : Int) + (MAX_ADD_ROWS : Int) - 1))
        [{ col := some 0, value := some "x" }] = .ok (doc3, 1, 0)) :=
  c3_row_cap exDoc 0
    { gridCols := 3,
      rows := [[exTc 1 "기간", exTc 2 "회사", exTc 3 "직책"],
               [exTc 4 "", exTc 5 "", exTc 6 ""],
               [exTc 7 "", exTc 8 "", exTc 9 ""]] }
    rfl (by decide) [{ col := some 0, value := some "y" }] 23 (by decide) 0 "x"
    (by decide) (by decide) (by decide)

/-! ## C7: the best-effort repair loop -/

theorem repairLoopAux_counts (sd : StructureDesc) (revise : FillPlan → List VError → FillPlan) :
    ∀ (n : Nat) (plan p : FillPlan) (es : List VError) (v r : Nat),
      repairLoopAux sd revise plan n = .ok (p, es, v, r) →
      1 ≤ v ∧ v ≤ n ∧ r + 1 ≤ n ∧ r < v := by
  intro n
  induction n with
  | zero => intro plan p es v r h; cases h
  | succ n ih =>
    intro plan p es v r h
    unfold repairLoopAux at h
    cases hval : validate_fill_plan sd plan with
    | error e => rw [hval] at h; cases h
    | ok errors =>
      rw [hval] at h
      dsimp only at h
      by_cases he : errors.isEmpty
      · rw [if_pos he] at h
        cases h
        omega
      · rw [if_neg he] at h
        by_cases hn : n = 0
        · rw [if_pos hn] at h
          cases h
          omega
        · rw [if_neg hn] at h
          cases hrec : repairLoopAux sd revise (revise plan errors) n with
          | error e => rw [hrec] at h; cases h
          | ok q =>
            rw [hrec] at h
            cases h
            have := ih (revise plan errors) q.1 q.2.1 q.2.2.1 q.2.2.2 (by rw [hrec])
            omega

/-- C7: for every `maxAttempts ≥ 1`, `smart_fill_docx` validates the
plan at least once and at most `maxAttempts` times, calls the external
revision step at most `maxAttempts - 1` times (and strictly fewer times
than it validates — a revision happens only when errors were found and
attempts remain), and regardless of whether validation errors remain
after the loop it hands the final plan to `execute_fill_plan` and
returns that execution's result: residual errors never abort the
operation. -/
theorem c7_repair_loop (doc : Doc) (revise : FillPlan → List VError → FillPlan)
    (plan0 : FillPlan) (maxAttempts : Nat) (hmax : 1 ≤ maxAttempts)
    (p : FillPlan) (es : List VError) (v r : Nat)
    (hloop : repairLoopAux (extract_docx_structure doc) revise plan0 maxAttempts =
      .ok (p, es, v, r)) :
    1 ≤ v ∧ v ≤ maxAttempts ∧ r ≤ maxAttempts - 1 ∧ r < v ∧
    smart_fill_docx doc revise plan0 maxAttempts = execute_fill_plan doc p := by
  have hc := repairLoopAux_counts (extract_docx_structure doc) revise maxAttempts
    plan0 p es v r hloop
  refine ⟨hc.1, hc.2.1, by omega, hc.2.2.2, ?_⟩
  unfold smart_fill_docx
  rw [hloop]

/-- Witness for `c7_repair_loop`: an empty plan validates clean on the
first attempt, so one validation, no revision, and execution of that
same plan. -/
theorem c7_repair_loop_witness :
    1 ≤ 1 ∧ 1 ≤ 2 ∧ 0 ≤ 2 - 1 ∧ 0 < 1 ∧
    smart_fill_docx exDoc (fun p _ => p) { fill_plan := [] } 2 =
      execute_fill_plan exDoc { fill_plan := [] } :=
  c7_repair_loop exDoc (fun p _ => p) { fill_plan := [] } 2 (by decide)
    { fill_plan := [] } [] 1 0 (by rfl)

/-! ## C5: duplicate detection emits exactly one error per duplicated cell -/

/-- Recognise a duplicate-fill error for a given `(table_idx, row, col)`
triple (whatever the reporting item's index). -/
def isDupFor (key : Int × Int × Int) : VError → Bool
  | .duplicateFill _ t r c => decide ((t, r, c) = key)
  | _ => false

/-- How many fill entries of one item address `key`, counted only when
the item passes the validator's preliminary checks (mirrors the guards
of `validate_fill_plan`: table fill, table in range, row present, not a
header row, below the row cap). -/
def itemKeyOcc (tables : List TableInfo) (key : Int × Int × Int) : FillItem → Nat
  | .tableFill tidxOpt rowOpt fills =>
    let tidx := tidxOpt.getD 0
    if tidx ≥ (tables.length : Int) then 0
    else
      match rowOpt with
      | none => 0
      | some row =>
        if ((headerRowsByTable tables tidx).getD []).any (fun h => (h : Int) == row) then 0
        else
          match pyGet tables tidx with
          | none => 0
          | some t =>
            if row ≥ (t.rows : Int) + (MAX_ADD_ROWS : Int) then 0
            else (fills.filterMap (fun fe => fe.col)).countP
              (fun c => decide (((tidx, row, c) : Int × Int × Int) = key))
  | _ => 0

/-- Total number of fill entries of a plan addressing `key` (in items
that reach the validator's fill loop). -/
def planKeyOcc (tables : List TableInfo) (key : Int × Int × Int) (items : List FillItem) : Nat :=
  (items.map (itemKeyOcc tables key)).sum

theorem validateFills_dup_count (i : Nat) (t r : Int) (vc : Option (List Nat))
    (key : Int × Int × Int) :
    ∀ (fills : List FillEntry) (seen : List (Int × Int × Int)),
      ((validateFills i t r vc seen fills).1.countP (isDupFor key) =
        (if key ∈ seen
         then (fills.filterMap (fun fe => fe.col)).countP
            (fun c => decide (((t, r, c) : Int × Int × Int) = key))
         else (fills.filterMap (fun fe => fe.col)).countP
            (fun c => decide (((t, r, c) : Int × Int × Int) = key)) - 1)) ∧
      (key ∈ (validateFills i t r vc seen fills).2 ↔ key ∈ seen ∨
        1 ≤ (fills.filterMap (fun fe => fe.col)).countP
          (fun c => decide (((t, r, c) : Int × Int × Int) = key))) := by
  intro fills
  induction fills with
  | nil =>
    intro seen
    constructor
    · by_cases h : key ∈ seen <;> simp [validateFills, h]
    · simp [validateFills]
  | cons fe rest ih =>
    intro seen
    cases hcol : fe.col with
    | none =>
      have hfm : (fe :: rest).filterMap (fun fe => fe.col) =
          rest.filterMap (fun fe => fe.col) := by
        rw [List.filterMap_cons, hcol]
      simp only [validateFills, hcol, hfm]
      exact ih seen
    | some c =>
      have hfm : (fe :: rest).filterMap (fun fe => fe.col) =
          c :: rest.filterMap (fun fe => fe.col) := by
        rw [List.filterMap_cons, hcol]
      have hcolerr : (match vc with
          | some vcl =>
            if vcl.any (fun x => (x : Int) == c) then ([] : List VError)
            else [VError.colNotFound i t r c (List.insertionSort (· ≤ ·) vcl.dedup)]
          | none => ([] : List VError)).countP (isDupFor key) = 0 := by
        cases vc with
        | none => rfl
        | some vcl =>
          dsimp only
          by_cases hv : vcl.any (fun x => (x : Int) == c)
          · rw [if_pos hv]; rfl
          · rw [if_neg hv]; simp [isDupFor]
      by_cases hkc : ((t, r, c) : Int × Int × Int) = key
      · -- this fill entry addresses the key
        subst hkc
        have hccount : ((fe :: rest).filterMap (fun fe => fe.col)).countP
            (fun x => decide (((t, r, x) : Int × Int × Int) = (t, r, c))) =
            (rest.filterMap (fun fe => fe.col)).countP
            (fun x => decide (((t, r, x) : Int × Int × Int) = (t, r, c))) + 1 := by
          rw [hfm, List.countP_cons]
          simp
        have hdup1 : ([VError.duplicateFill i t r c] : List VError).countP
            (isDupFor (t, r, c)) = 1 := by
          simp [isDupFor]
        by_cases hs : ((t, r, c) : Int × Int × Int) ∈ seen
        · simp only [validateFills, hcol, if_pos hs]
          obtain ⟨ihc, ihm⟩ := ih seen
          constructor
          · rw [List.countP_append, List.countP_append, hcolerr, ihc, hccount, hdup1]
            simp only [if_pos hs]
            omega
          · rw [ihm, hccount]
            constructor
            · intro _; exact Or.inl hs
            · intro _; exact Or.inl hs
        · simp only [validateFills, hcol, if_neg hs]
          obtain ⟨ihc, ihm⟩ := ih (((t, r, c) : Int × Int × Int) :: seen)
          have hmem : ((t, r, c) : Int × Int × Int) ∈ ((t, r, c) : Int × Int × Int) :: seen := by
            simp
          constructor
          · rw [List.countP_append, List.countP_append, hcolerr, ihc, hccount]
            simp only [if_pos hmem, if_neg hs, List.countP_nil]
            omega
          · rw [ihm, hccount]
            constructor
            · intro _; right; omega
            · intro _; exact Or.inl hmem
      · -- a fill entry for a different cell
        have hcnt : ((fe :: rest).filterMap (fun fe => fe.col)).countP
            (fun x => decide (((t, r, x) : Int × Int × Int) = key)) =
            (rest.filterMap (fun fe => fe.col)).countP
            (fun x => decide (((t, r, x) : Int × Int × Int) = key)) := by
          rw [hfm, List.countP_cons]
          simp [hkc]
        have hdup0 : ([VError.duplicateFill i t r c] : List VError).countP
            (isDupFor key) = 0 := by
          simp [isDupFor, hkc]
        by_cases hs : ((t, r, c) : Int × Int × Int) ∈ seen
        · simp only [validateFills, hcol, if_pos hs]
          obtain ⟨ihc, ihm⟩ := ih seen
          constructor
          · rw [List.countP_append, List.countP_append, hcolerr, ihc, hcnt, hdup0]
            omega
          · rw [ihm, hcnt]
        · simp only [validateFills, hcol, if_neg hs]
          obtain ⟨ihc, ihm⟩ := ih (((t, r, c) : Int × Int × Int) :: seen)
          have hkmem : (key ∈ ((t, r, c) : Int × Int × Int) :: seen) ↔ key ∈ seen := by
            simp only [List.mem_cons]
            constructor
            · intro h
              rcases h with h | h
              · exact absurd h.symm hkc
              · exact h
            · intro h; exact Or.inr h
          constructor
          · rw [List.countP_append, List.countP_append, hcolerr, ihc, hcnt]
            simp only [List.countP_nil]
            by_cases hks : key ∈ seen
            · rw [if_pos (hkmem.mpr hks), if_pos hks]
              omega
            · rw [if_neg (fun hcon => hks (hkmem.mp hcon)), if_neg hks]
              omega
          · rw [ihm, hcnt, hkmem]

theorem except_map_ok {α β : Type} (x : Except PyErr α) (f : α → β) (b : β)
    (h : x.map f = .ok b) : ∃ a, x = .ok a ∧ b = f a := by
  cases x with
  | error e => simp [Except.map] at h
  | ok a =>
    simp only [Except.map, Except.ok.injEq] at h
    exact ⟨a, rfl, h.symm⟩

theorem validateItems_dup_count (tables : List TableInfo) (paragraphs : List ParaInfo)
    (key : Int × Int × Int) :
    ∀ (items : List FillItem) (i : Nat) (seen : List (Int × Int × Int)) (errs : List VError),
      validateItems tables paragraphs i seen items = .ok errs →
      errs.countP (isDupFor key) =
        (if key ∈ seen then planKeyOcc tables key items
         else planKeyOcc tables key items - 1) := by
  intro items
  induction items with
  | nil =>
    intro i seen errs h
    cases h
    by_cases hks : key ∈ seen <;> simp [planKeyOcc, hks]
  | cons item rest ih =>
    intro i seen errs h
    have hplan : planKeyOcc tables key (item :: rest) =
        itemKeyOcc tables key item + planKeyOcc tables key rest := by
      simp [planKeyOcc]
    cases item with
    | otherTarget =>
      simp only [validateItems] at h
      have := ih (i + 1) seen errs h
      rw [hplan]
      have hio : itemKeyOcc tables key .otherTarget = 0 := rfl
      rw [hio]
      simpa using this
    | paragraphFill a p q v =>
      simp only [validateItems] at h
      by_cases ha : a.getD "replace" = "replace"
      · rw [if_pos ha] at h
        cases p with
        | none =>
          dsimp only at h
          obtain ⟨errs2, hrec, heq⟩ := except_map_ok _ _ _ h
          have hihv := ih (i + 1) seen errs2 hrec
          rw [hplan, heq]
          have hio : itemKeyOcc tables key (.paragraphFill a none q v) = 0 := rfl
          rw [hio, List.countP_append, hihv]
          by_cases hks : key ∈ seen <;> simp [hks, isDupFor]
        | some idx =>
          dsimp only at h
          by_cases hpl : idx ≥ (paragraphs.length : Int)
          · rw [if_pos hpl] at h
            obtain ⟨errs2, hrec, heq⟩ := except_map_ok _ _ _ h
            have hihv := ih (i + 1) seen errs2 hrec
            rw [hplan, heq]
            have hio : itemKeyOcc tables key (.paragraphFill a (some idx) q v) = 0 := rfl
            rw [hio, List.countP_append, hihv]
            by_cases hks : key ∈ seen <;> simp [hks, isDupFor]
          · rw [if_neg hpl] at h
            obtain ⟨errs2, hrec, heq⟩ := except_map_ok _ _ _ h
            have hihv := ih (i + 1) seen errs2 hrec
            rw [hplan, heq]
            have hio : itemKeyOcc tables key (.paragraphFill a (some idx) q v) = 0 := rfl
            rw [hio, List.countP_append, hihv]
            by_cases hks : key ∈ seen <;> simp [hks, isDupFor]
      · rw [if_neg ha] at h
        by_cases hins : a.getD "replace" = "insert"
        · rw [if_pos hins] at h
          cases q with
          | none =>
            dsimp only at h
            obtain ⟨errs2, hrec, heq⟩ := except_map_ok _ _ _ h
            have hihv := ih (i + 1) seen errs2 hrec
            rw [hplan, heq]
            have hio : itemKeyOcc tables key (.paragraphFill a p none v) = 0 := rfl
            rw [hio, List.countP_append, hihv]
            by_cases hks : key ∈ seen <;> simp [hks, isDupFor]
          | some idx =>
            dsimp only at h
            by_cases hpl : idx ≥ (paragraphs.length : Int)
            · rw [if_pos hpl] at h
              obtain ⟨errs2, hrec, heq⟩ := except_map_ok _ _ _ h
              have hihv := ih (i + 1) seen errs2 hrec
              rw [hplan, heq]
              have hio : itemKeyOcc tables key (.paragraphFill a p (some idx) v) = 0 := rfl
              rw [hio, List.countP_append, hihv]
              by_cases hks : key ∈ seen <;> simp [hks, isDupFor]
            · rw [if_neg hpl] at h
              obtain ⟨errs2, hrec, heq⟩ := except_map_ok _ _ _ h
              have hihv := ih (i + 1) seen errs2 hrec
              rw [hplan, heq]
              have hio : itemKeyOcc tables key (.paragraphFill a p (some idx) v) = 0 := rfl
              rw [hio, List.countP_append, hihv]
              by_cases hks : key ∈ seen <;> simp [hks, isDupFor]
        · rw [if_neg hins] at h
          obtain ⟨errs2, hrec, heq⟩ := except_map_ok _ _ _ h
          have hihv := ih (i + 1) seen errs2 hrec
          rw [hplan, heq]
          have hio : itemKeyOcc tables key (.paragraphFill a p q v) = 0 := rfl
          rw [hio, List.countP_append, hihv]
          by_cases hks : key ∈ seen <;> simp [hks, isDupFor]
    | tableFill tidxOpt rowOpt fills =>
      simp only [validateItems] at h
      by_cases hge : tidxOpt.getD 0 ≥ (tables.length : Int)
      · rw [if_pos hge] at h
        obtain ⟨errs2, hrec, rfl⟩ := except_map_ok _ _ _ h
        have hihv := ih (i + 1) seen errs2 hrec
        have hio : itemKeyOcc tables key (.tableFill tidxOpt rowOpt fills) = 0 := by
          simp only [itemKeyOcc, if_pos hge]
        rw [hplan, hio, List.countP_cons, hihv]
        have : isDupFor key (VError.tableIdxRange i (tidxOpt.getD 0) tables.length) = false := rfl
        rw [this]
        by_cases hks : key ∈ seen <;> simp [hks]
      · rw [if_neg hge] at h
        cases rowOpt with
        | none =>
          dsimp only at h
          obtain ⟨errs2, hrec, rfl⟩ := except_map_ok _ _ _ h
          have hihv := ih (i + 1) seen errs2 hrec
          have hio : itemKeyOcc tables key (.tableFill tidxOpt none fills) = 0 := by
            simp only [itemKeyOcc, if_neg hge]
          rw [hplan, hio, List.countP_cons, hihv]
          have : isDupFor key (VError.rowMissing i) = false := rfl
          rw [this]
          by_cases hks : key ∈ seen <;> simp [hks]
        | some row =>
          dsimp only at h
          by_cases hh : ((headerRowsByTable tables (tidxOpt.getD 0)).getD []).any
              (fun x => (x : Int) == row)
          · rw [if_pos hh] at h
            obtain ⟨errs2, hrec, rfl⟩ := except_map_ok _ _ _ h
            have hihv := ih (i + 1) seen errs2 hrec
            have hio : itemKeyOcc tables key (.tableFill tidxOpt (some row) fills) = 0 := by
              simp only [itemKeyOcc, if_neg hge]
              rw [if_pos hh]
            rw [hplan, hio, List.countP_cons, hihv]
            have : isDupFor key (VError.headerRowProtected i row) = false := rfl
            rw [this]
            by_cases hks : key ∈ seen <;> simp [hks]
          · rw [if_neg hh] at h
            cases hget : pyGet tables (tidxOpt.getD 0) with
            | none => rw [hget] at h; cases h
            | some tinfo =>
              rw [hget] at h
              dsimp only at h
              by_cases hr : row ≥ (tinfo.rows : Int) + (MAX_ADD_ROWS : Int)
              · rw [if_pos hr] at h
                obtain ⟨errs2, hrec, rfl⟩ := except_map_ok _ _ _ h
                have hihv := ih (i + 1) seen errs2 hrec
                have hio : itemKeyOcc tables key (.tableFill tidxOpt (some row) fills) = 0 := by
                  simp only [itemKeyOcc, if_neg hge]
                  rw [if_neg hh, hget]
                  dsimp only
                  rw [if_pos hr]
                rw [hplan, hio, List.countP_cons, hihv]
                have : isDupFor key (VError.rowRange i row tinfo.rows MAX_ADD_ROWS) = false := rfl
                rw [this]
                by_cases hks : key ∈ seen <;> simp [hks]
              · rw [if_neg hr] at h
                obtain ⟨errs2, hrec, rfl⟩ := except_map_ok _ _ _ h
                have hihv := ih (i + 1) _ errs2 hrec
                obtain ⟨hfc, hfm⟩ := validateFills_dup_count i (tidxOpt.getD 0) row
                  (validColsByRow tables (tidxOpt.getD 0) row) key fills seen
                have hio : itemKeyOcc tables key (.tableFill tidxOpt (some row) fills) =
                    (fills.filterMap (fun fe => fe.col)).countP
                      (fun c => decide (((tidxOpt.getD 0, row, c) : Int × Int × Int) = key)) := by
                  simp only [itemKeyOcc, if_neg hge]
                  rw [if_neg hh, hget]
                  dsimp only
                  rw [if_neg hr]
                rw [hplan, hio, List.countP_append, hfc, hihv]
                by_cases hks : key ∈ seen
                · have hks2 : key ∈ (validateFills i (tidxOpt.getD 0) row
                      (validColsByRow tables (tidxOpt.getD 0) row) seen fills).2 :=
                    hfm.mpr (Or.inl hks)
                  rw [if_pos hks, if_pos hks, if_pos hks2]
                · by_cases h1 : 1 ≤ (fills.filterMap (fun fe => fe.col)).countP
                      (fun c => decide (((tidxOpt.getD 0, row, c) : Int × Int × Int) = key))
                  · have hks2 : key ∈ (validateFills i (tidxOpt.getD 0) row
                        (validColsByRow tables (tidxOpt.getD 0) row) seen fills).2 :=
                      hfm.mpr (Or.inr h1)
                    rw [if_neg hks, if_neg hks, if_pos hks2]
                    omega
                  · have hks2 : key ∉ (validateFills i (tidxOpt.getD 0) row
                        (validColsByRow tables (tidxOpt.getD 0) row) seen fills).2 := by
                      intro hcon
                      rcases hfm.mp hcon with hc | hc
                      · exact hks hc
                      · exact h1 hc
                    rw [if_neg hks, if_neg hks, if_neg hks2]
                    omega

/-- C5: a plan whose fill entries address one `(table_idx, row, col)`
triple exactly twice (within one item or across two items, the items
passing the validator's preliminary checks — `planKeyOcc` mirrors those
guards) receives exactly ONE duplicate-fill error for that triple, not
two. -/
theorem c5_duplicate_single_error (sd : StructureDesc) (plan : FillPlan)
    (key : Int × Int × Int) (errs : List VError)
    (hval : validate_fill_plan sd plan = .ok errs)
    (hocc : planKeyOcc sd.tables key plan.fill_plan = 2) :
    errs.countP (isDupFor key) = 1 := by
  have h := validateItems_dup_count sd.tables sd.paragraphs key plan.fill_plan 0 [] errs hval
  rw [hocc] at h
  simpa using h

/-- Witness for `c5_duplicate_single_error`: two fills of cell
`(0, 1, 0)` in one item of the example document produce the single
duplicate error. -/
theorem c5_duplicate_single_error_witness :
    ([VError.duplicateFill 0 0 1 0] : List VError).countP (isDupFor (0, 1, 0)) = 1 :=
  c5_duplicate_single_error (extract_docx_structure exDoc)
    { fill_plan := [.tableFill (some 0) (some 1)
        [{ col := some 0, value := some "a" }, { col := some 0, value := some "b" }]] }
    (0, 1, 0) [VError.duplicateFill 0 0 1 0] (by rfl) (by rfl)

/-! ## C10: silent paragraph-item acceptance and optimistic counting -/

/-- C10 counterexample: a paragraph replace item with
`paragraph_idx = -2` on a one-paragraph document is out of range, yet
execution neither leaves the document unchanged with `filledCount`
incremented nor counts a failure — `doc.paragraphs[-2]` raises
`IndexError` and aborts the whole execution, so nothing is saved. -/
theorem c10_counterexample :
    execute_fill_plan exDoc
      { fill_plan := [.paragraphFill (some "replace") (some (-2)) none (some "x")] } =
      .error .indexError := by
  rfl

/-- C10 (amended): the validator reports no error for a paragraph item
whose index field is absent; during execution a paragraph item whose
index is absent or at least the paragraph count leaves the document
unchanged yet still increments `filledCount` by one; and `failedCount`
is never incremented for any paragraph item (indices below
`-len(paragraphs)` raise `IndexError` instead, see the
counterexample). -/
theorem c10_paragraph_item (doc : Doc) (sd : StructureDesc) (a : Option String)
    (v : Option String) (idx : Int) :
    (validate_fill_plan sd
      { fill_plan := [.paragraphFill (some "replace") none none v] } = .ok []) ∧
    (validate_fill_plan sd
      { fill_plan := [.paragraphFill (some "insert") none none v] } = .ok []) ∧
    (execute_fill_plan doc
      { fill_plan := [.paragraphFill (some "replace") none none v] } = .ok (doc, 1, 0)) ∧
    ((doc.paragraphs.length : Int) ≤ idx →
      execute_fill_plan doc
        { fill_plan := [.paragraphFill (some "replace") (some idx) none v] } =
        .ok (doc, 1, 0)) ∧
    (execute_fill_plan doc
      { fill_plan := [.paragraphFill (some "insert") none none v] } = .ok (doc, 1, 0)) ∧
    ((doc.paragraphs.length : Int) ≤ idx →
      execute_fill_plan doc
        { fill_plan := [.paragraphFill (some "insert") none (some idx) v] } =
        .ok (doc, 1, 0)) ∧
    (∀ (p q : Option Int) (res : Doc × Nat × Nat),
      execute_fill_plan doc { fill_plan := [.paragraphFill a p q v] } = .ok res →
      res.2.2 = 0) := by
  refine ⟨rfl, rfl, rfl, ?_, rfl, ?_, ?_⟩
  · intro h
    simp only [execute_fill_plan, execItems, execItem, _execute_paragraph_fill,
      Option.getD_some, if_true, ite_true]
    rw [if_neg (not_lt.mpr h)]
  · intro h
    simp only [execute_fill_plan, execItems, execItem, _execute_paragraph_fill,
      Option.getD_some, if_true, ite_true]
    rw [if_neg (show ¬(("insert" : String) = "replace") by decide)]
    rw [if_neg (not_lt.mpr h)]
  · intro p q res hres
    simp only [execute_fill_plan, execItems, execItem] at hres
    cases hpf : _execute_paragraph_fill doc a p q v with
    | error e => rw [hpf] at hres; cases hres
    | ok doc2 =>
      rw [hpf] at hres
      dsimp only at hres
      cases hres
      rfl

/-- Witness for `c10_paragraph_item`: the one-paragraph example document
with `paragraph_idx = 5`. -/
theorem c10_paragraph_item_witness :
    (execute_fill_plan exDoc
      { fill_plan := [.paragraphFill (some "replace") (some 5) none (some "x")] } =
      .ok (exDoc, 1, 0)) ∧
    (execute_fill_plan exDoc
      { fill_plan := [.paragraphFill (some "insert") none (some 5) (some "x")] } =
      .ok (exDoc, 1, 0)) ∧
    ((0 : Nat) = 0) :=
  ⟨(c10_paragraph_item exDoc (extract_docx_structure exDoc) (some "replace")
      (some "x") 5).2.2.2.1 (by decide),
   (c10_paragraph_item exDoc (extract_docx_structure exDoc) (some "insert")
      (some "x") 5).2.2.2.2.2.1 (by decide),
   (c10_paragraph_item exDoc (extract_docx_structure exDoc) (some "replace")
      (some "x") 5).2.2.2.2.2.2 (some 5) none (exDoc, 1, 0) (by rfl)⟩


/-! ## C8: executor failure isolation -/

/-- Every index field of a plan item is non-negative (`table_idx`
defaults to 0 when absent, matching `item.get("table_idx", 0)`). -/
def itemIdxNonneg : FillItem → Bool
  | .tableFill table_idxOpt rowOpt _ =>
    decide (0 ≤ table_idxOpt.getD 0) &&
      (match rowOpt with
       | none => true
       | some r => decide (0 ≤ r))
  | .paragraphFill _ pidxOpt aidxOpt _ =>
    (match pidxOpt with
     | none => true
     | some i => decide (0 ≤ i)) &&
      (match aidxOpt with
       | none => true
       | some i => decide (0 ≤ i))
  | .otherTarget => true

def planIdxNonneg (plan : FillPlan) : Bool := plan.fill_plan.all itemIdxNonneg

/-- Every table of the document has at least one row. -/
def tablesNonempty (doc : Doc) : Bool := doc.tables.all (fun t => !t.rows.isEmpty)

theorem tablesNonempty_iff (doc : Doc) :
    tablesNonempty doc = true ↔
      ∀ s tbl, doc.tables.get? s = some tbl → tbl.rows ≠ [] := by
  unfold tablesNonempty
  rw [List.all_eq_true]
  constructor
  · intro h s tbl hs hnil
    have h2 := h tbl (List.get?_mem hs)
    rw [hnil] at h2
    simp at h2
  · intro h tbl htbl
    obtain ⟨s, hs⟩ := List.mem_iff_get?.mp htbl
    have hne := h s tbl hs
    show (!tbl.rows.isEmpty) = true
    cases hh : tbl.rows with
    | nil => exact absurd hh hne
    | cons a l => rfl

theorem pyIdx_nonneg (n : Nat) (i : Int) (h0 : 0 ≤ i) (h : i < (n : Int)) :
    pyIdx n i = some i.toNat := by
  unfold pyIdx
  rw [if_pos ⟨h0, h⟩]

theorem set_cell_text_paragraphs (doc : Doc) (cid : Nat) (txt : String) :
    (_set_cell_text doc cid txt).paragraphs = doc.paragraphs := rfl

theorem set_cell_text_get? (doc : Doc) (cid : Nat) (txt : String) (s : Nat) :
    (_set_cell_text doc cid txt).tables.get? s =
      (doc.tables.get? s).map (fun t =>
        { t with rows := t.rows.map (fun r => r.map (fun tc =>
            if tc.tcId = cid then { tc with paras := setCellParas tc.paras txt }
            else tc)) }) := by
  unfold _set_cell_text
  dsimp only
  rw [List.get?_map]

theorem set_cell_text_length (doc : Doc) (cid : Nat) (txt : String) :
    (_set_cell_text doc cid txt).tables.length = doc.tables.length := by
  unfold _set_cell_text
  dsimp only
  rw [List.length_map]

theorem row_update_tcIds (cid : Nat) (txt : String) (r : TableRow) :
    (r.map (fun tc =>
      if tc.tcId = cid then { tc with paras := setCellParas tc.paras txt }
      else tc)).map (fun tc => tc.tcId) = r.map (fun tc => tc.tcId) := by
  induction r with
  | nil => rfl
  | cons a rest ih =>
    by_cases h : a.tcId = cid
    · simp only [List.map_cons, if_pos h, ih]
    · simp only [List.map_cons, if_neg h, ih]

theorem row_update_id (cid : Nat) (txt : String) (r : TableRow)
    (h : ∀ tc ∈ r, tc.tcId ≠ cid) :
    r.map (fun tc =>
      if tc.tcId = cid then { tc with paras := setCellParas tc.paras txt }
      else tc) = r := by
  induction r with
  | nil => rfl
  | cons a rest ih =>
    rw [List.map_cons, if_neg (h a (List.mem_cons_self a rest)),
      ih (fun tc htc => h tc (List.mem_cons_of_mem a htc))]

theorem set_cell_text_tcIds (doc : Doc) (cid : Nat) (txt : String) :
    docTcIds (_set_cell_text doc cid txt) = docTcIds doc := by
  unfold docTcIds _set_cell_text
  dsimp only
  rw [List.map_map]
  congr 1
  apply List.map_congr_left
  intro t _
  simp only [Function.comp_apply]
  rw [List.map_map]
  congr 1
  apply List.map_congr_left
  intro r _
  simp only [Function.comp_apply]
  exact row_update_tcIds cid txt r

theorem execFills_paragraphs (uc : List (Nat × Tc)) (fills : List FillEntry) :
    ∀ doc : Doc, (execFills doc uc fills).1.paragraphs = doc.paragraphs := by
  induction fills with
  | nil => intro doc; rfl
  | cons fe rest ih =>
    intro doc
    obtain ⟨colOpt, valOpt⟩ := fe
    cases colOpt with
    | none => exact ih doc
    | some col =>
      dsimp only [execFills]
      by_cases hv : valOpt.getD "" = ""
      · rw [if_pos hv]
        exact ih doc
      · rw [if_neg hv]
        cases hf : uc.find? (fun p => (p.1 : Int) == col) with
        | none =>
          dsimp only
          exact ih doc
        | some p =>
          dsimp only
          rw [ih]
          rfl

theorem execFills_tcIds (uc : List (Nat × Tc)) (fills : List FillEntry) :
    ∀ doc : Doc, docTcIds (execFills doc uc fills).1 = docTcIds doc := by
  induction fills with
  | nil => intro doc; rfl
  | cons fe rest ih =>
    intro doc
    obtain ⟨colOpt, valOpt⟩ := fe
    cases colOpt with
    | none => exact ih doc
    | some col =>
      dsimp only [execFills]
      by_cases hv : valOpt.getD "" = ""
      · rw [if_pos hv]
        exact ih doc
      · rw [if_neg hv]
        cases hf : uc.find? (fun p => (p.1 : Int) == col) with
        | none =>
          dsimp only
          exact ih doc
        | some p =>
          dsimp only
          rw [ih, set_cell_text_tcIds]

theorem execFills_length (uc : List (Nat × Tc)) (fills : List FillEntry) :
    ∀ doc : Doc, (execFills doc uc fills).1.tables.length = doc.tables.length := by
  induction fills with
  | nil => intro doc; rfl
  | cons fe rest ih =>
    intro doc
    obtain ⟨colOpt, valOpt⟩ := fe
    cases colOpt with
    | none => exact ih doc
    | some col =>
      dsimp only [execFills]
      by_cases hv : valOpt.getD "" = ""
      · rw [if_pos hv]
        exact ih doc
      · rw [if_neg hv]
        cases hf : uc.find? (fun p => (p.1 : Int) == col) with
        | none =>
          dsimp only
          exact ih doc
        | some p =>
          dsimp only
          rw [ih, set_cell_text_length]

/-- `execFills` only rewrites cell contents: table shapes and cell
identities are preserved, and any row none of whose cells aliases a
unique-cell entry is untouched. -/
theorem execFills_shape (uc : List (Nat × Tc)) (fills : List FillEntry) :
    ∀ (doc : Doc) (s : Nat) (tbl : DocTable), doc.tables.get? s = some tbl →
      ∃ tbl2, (execFills doc uc fills).1.tables.get? s = some tbl2 ∧
        tbl2.rows.length = tbl.rows.length ∧
        (∀ j row, tbl.rows.get? j = some row → ∃ row2,
          tbl2.rows.get? j = some row2 ∧
          row2.map (fun tc => tc.tcId) = row.map (fun tc => tc.tcId) ∧
          ((∀ tc ∈ row, ∀ p ∈ uc, tc.tcId ≠ p.2.tcId) → row2 = row)) := by
  induction fills with
  | nil =>
    intro doc s tbl hs
    exact ⟨tbl, hs, rfl, fun j row hj => ⟨row, hj, rfl, fun _ => rfl⟩⟩
  | cons fe rest ih =>
    intro doc s tbl hs
    obtain ⟨colOpt, valOpt⟩ := fe
    cases colOpt with
    | none => exact ih doc s tbl hs
    | some col =>
      dsimp only [execFills]
      by_cases hv : valOpt.getD "" = ""
      · rw [if_pos hv]
        exact ih doc s tbl hs
      · rw [if_neg hv]
        cases hf : uc.find? (fun p => (p.1 : Int) == col) with
        | none =>
          dsimp only
          exact ih doc s tbl hs
        | some p =>
          dsimp only
          have hpmem : p ∈ uc := List.mem_of_find?_eq_some hf
          have hs2 : (_set_cell_text doc p.2.tcId
              (_strip_md (valOpt.getD ""))).tables.get? s =
              some { tbl with rows := tbl.rows.map (fun r => r.map (fun tc =>
                if tc.tcId = p.2.tcId then
                  { tc with paras := setCellParas tc.paras (_strip_md (valOpt.getD "")) }
                else tc)) } := by
            rw [set_cell_text_get?, hs]
            rfl
          obtain ⟨tbl2, hget2, hlen2, hrow2⟩ := ih _ s _ hs2
          refine ⟨tbl2, hget2, ?_, ?_⟩
          · rw [hlen2]
            dsimp only
            exact List.length_map _ _
          · intro j row hj
            have hj2 : ({ tbl with rows := tbl.rows.map (fun r => r.map (fun tc =>
                if tc.tcId = p.2.tcId then
                  { tc with paras := setCellParas tc.paras (_strip_md (valOpt.getD "")) }
                else tc)) } : DocTable).rows.get? j =
                some (row.map (fun tc =>
                  if tc.tcId = p.2.tcId then
                    { tc with paras := setCellParas tc.paras (_strip_md (valOpt.getD "")) }
                  else tc)) := by
              dsimp only
              rw [List.get?_map, hj]
              rfl
            obtain ⟨row2, hr2, hrid, hrunch⟩ := hrow2 j _ hj2
            refine ⟨row2, hr2, ?_, ?_⟩
            · rw [hrid, row_update_tcIds]
            · intro hall
              have hset : row.map (fun tc =>
                  if tc.tcId = p.2.tcId then
                    { tc with paras := setCellParas tc.paras (_strip_md (valOpt.getD "")) }
                  else tc) = row :=
                row_update_id _ _ row (fun tc htc => hall tc htc p hpmem)
              rw [hset] at hrunch
              exact hrunch hall

theorem execFills_nonempty (uc : List (Nat × Tc)) (fills : List FillEntry) (doc : Doc)
    (h : tablesNonempty doc = true) :
    tablesNonempty (execFills doc uc fills).1 = true := by
  rw [tablesNonempty_iff] at h ⊢
  intro s tbl2 hs2
  have hlt : s < (execFills doc uc fills).1.tables.length := by
    by_contra hc
    rw [List.get?_eq_none.mpr (by omega)] at hs2
    cases hs2
  rw [execFills_length] at hlt
  obtain ⟨tbl, htbl⟩ : ∃ tbl, doc.tables.get? s = some tbl := ⟨_, List.get?_eq_get hlt⟩
  obtain ⟨tbl2b, hget2, hlen2, _⟩ := execFills_shape uc fills doc s tbl htbl
  rw [hget2] at hs2
  cases hs2
  intro hnil
  rw [hnil] at hlen2
  have hz : tbl.rows = [] :=
    List.length_eq_zero.mp (by simpa using hlen2.symm)
  exact h s tbl htbl hz

/-- With non-negative indices, a paragraph item always succeeds and
leaves every table untouched. -/
theorem para_fill_nonneg_ok (doc : Doc) (actionOpt : Option String)
    (pidxOpt aidxOpt : Option Int) (valueOpt : Option String)
    (hp : ∀ i, pidxOpt = some i → 0 ≤ i) (ha : ∀ i, aidxOpt = some i → 0 ≤ i) :
    ∃ doc2, _execute_paragraph_fill doc actionOpt pidxOpt aidxOpt valueOpt = .ok doc2 ∧
      doc2.tables = doc.tables := by
  unfold _execute_paragraph_fill
  by_cases hact : actionOpt.getD "replace" = "replace"
  · rw [if_pos hact]
    cases pidxOpt with
    | none => exact ⟨doc, rfl, rfl⟩
    | some i =>
      dsimp only
      by_cases hi : i < (doc.paragraphs.length : Int)
      · rw [if_pos hi]
        have h0 := hp i rfl
        rw [pyIdx_nonneg _ _ h0 hi]
        dsimp only
        have hk : i.toNat < doc.paragraphs.length := by omega
        rw [List.get?_eq_get hk]
        dsimp only
        exact ⟨_, rfl, rfl⟩
      · rw [if_neg hi]
        exact ⟨doc, rfl, rfl⟩
  · rw [if_neg hact]
    by_cases hact2 : actionOpt.getD "replace" = "insert"
    · rw [if_pos hact2]
      cases aidxOpt with
      | none => exact ⟨doc, rfl, rfl⟩
      | some i =>
        dsimp only
        by_cases hi : i < (doc.paragraphs.length : Int)
        · rw [if_pos hi]
          have h0 := ha i rfl
          rw [pyIdx_nonneg _ _ h0 hi]
          dsimp only
          have hk : i.toNat < doc.paragraphs.length := by omega
          rw [List.get?_eq_get hk]
          dsimp only
          exact ⟨_, rfl, rfl⟩
        · rw [if_neg hi]
          exact ⟨doc, rfl, rfl⟩
    · rw [if_neg hact2]
      exact ⟨doc, rfl, rfl⟩

/-- With a non-negative `table_idx` and `row` and no rowless table, a
table item always returns counts instead of raising. -/
theorem table_fill_nonneg_ok (doc : Doc) (table_idxOpt rowOpt : Option Int)
    (fills : List FillEntry)
    (hne : tablesNonempty doc = true)
    (ht0 : 0 ≤ table_idxOpt.getD 0)
    (hr0 : ∀ r, rowOpt = some r → 0 ≤ r) :
    ∃ res, _execute_table_fill doc table_idxOpt rowOpt fills = .ok res ∧
      tablesNonempty res.1 = true := by
  unfold _execute_table_fill
  by_cases hguard : table_idxOpt.getD 0 ≥ (doc.tables.length : Int) ∨ rowOpt = none
  · rw [if_pos hguard]
    exact ⟨(doc, 0, 1), rfl, hne⟩
  · rw [if_neg hguard]
    rw [not_or] at hguard
    obtain ⟨hA, hB⟩ := hguard
    have hlt2 : table_idxOpt.getD 0 < (doc.tables.length : Int) := lt_of_not_ge hA
    cases rowOpt with
    | none => exact absurd rfl hB
    | some row_idx =>
      dsimp only
      have hr := hr0 row_idx rfl
      rw [pyIdx_nonneg _ _ ht0 hlt2]
      dsimp only
      have htlt : (table_idxOpt.getD 0).toNat < doc.tables.length := by omega
      have htbl := List.get?_eq_get htlt
      obtain ⟨doc2, tbl2, hloop, hget2, hne2, hlen2, hpre2, happ2, hlastuq2,
        hpar2, htlen2, hoth2, hfresh2, hsub2⟩ :=
        addRowsLoop_spec ((table_idxOpt.getD 0).toNat) row_idx MAX_ADD_ROWS doc _
          htbl ((tablesNonempty_iff doc).mp hne _ _ htbl)
      have hne2all : tablesNonempty doc2 = true := by
        rw [tablesNonempty_iff]
        intro s tblX hsX
        by_cases hst : s = (table_idxOpt.getD 0).toNat
        · subst hst
          rw [hget2] at hsX
          cases hsX
          exact hne2
        · rw [hoth2 s hst] at hsX
          exact (tablesNonempty_iff doc).mp hne s tblX hsX
      rw [hloop]
      dsimp only
      rw [hget2]
      dsimp only
      by_cases hrow2 : row_idx ≥ (tbl2.rows.length : Int)
      · rw [if_pos hrow2]
        exact ⟨(doc2, 0, fills.length), rfl, hne2all⟩
      · rw [if_neg hrow2]
        have hrlt : row_idx.toNat < tbl2.rows.length := by omega
        have hpg : pyGet tbl2.rows row_idx = tbl2.rows.get? row_idx.toNat := by
          unfold pyGet
          rw [pyIdx_nonneg _ _ hr (by omega)]
        rw [hpg, List.get?_eq_get hrlt]
        dsimp only
        exact ⟨_, rfl, execFills_nonempty _ _ _ hne2all⟩

theorem execItem_nonneg_ok (doc : Doc) (item : FillItem)
    (hne : tablesNonempty doc = true) (hitem : itemIdxNonneg item = true) :
    ∃ r, execItem doc item = .ok r ∧ tablesNonempty r.1 = true := by
  cases item with
  | tableFill tidx rowOpt fills =>
    cases rowOpt with
    | none =>
      simp only [itemIdxNonneg, Bool.and_true, decide_eq_true_eq] at hitem
      exact table_fill_nonneg_ok doc tidx none fills hne hitem (fun r hr => by cases hr)
    | some r0 =>
      simp only [itemIdxNonneg, Bool.and_eq_true, decide_eq_true_eq] at hitem
      exact table_fill_nonneg_ok doc tidx (some r0) fills hne hitem.1
        (fun r hr => by cases hr; exact hitem.2)
  | paragraphFill act pidx aidx val =>
    have h1 : ∀ i, pidx = some i → 0 ≤ i := by
      intro i hi
      subst hi
      simp only [itemIdxNonneg, Bool.and_eq_true, decide_eq_true_eq] at hitem
      exact hitem.1
    have h2 : ∀ i, aidx = some i → 0 ≤ i := by
      intro i hi
      subst hi
      simp only [itemIdxNonneg, Bool.and_eq_true, decide_eq_true_eq] at hitem
      exact hitem.2
    obtain ⟨doc2, hd, htab⟩ := para_fill_nonneg_ok doc act pidx aidx val h1 h2
    refine ⟨(doc2, 1, 0), ?_, ?_⟩
    · unfold execItem
      dsimp only
      rw [hd]
    · unfold tablesNonempty at hne ⊢
      rw [htab]
      exact hne
  | otherTarget => exact ⟨(doc, 0, 0), rfl, hne⟩

theorem execItems_nonneg_ok (items : List FillItem) : ∀ doc : Doc,
    tablesNonempty doc = true → (∀ item ∈ items, itemIdxNonneg item = true) →
    ∃ res, execItems doc items = .ok res ∧ tablesNonempty res.1 = true := by
  induction items with
  | nil =>
    intro doc hne _
    exact ⟨(doc, 0, 0), rfl, hne⟩
  | cons item rest ih =>
    intro doc hne hall
    obtain ⟨r, hr, hner⟩ :=
      execItem_nonneg_ok doc item hne (hall item (List.mem_cons_self _ _))
    obtain ⟨res, hres, hneres⟩ :=
      ih r.1 hner (fun it hit => hall it (List.mem_cons_of_mem _ hit))
    refine ⟨(res.1, r.2.1 + res.2.1, r.2.2 + res.2.2), ?_, hneres⟩
    dsimp only [execItems]
    rw [hr]
    dsimp only
    rw [hres]

/-- A single bad item (`table_idx = -5` on a one-table document) makes
`execute_fill_plan` raise `IndexError` at `doc.tables[table_idx]`
instead of isolating it as a counted failure: negative indices pass the
`table_idx >= len(doc.tables)` guard. -/
theorem c8_counterexample :
    execute_fill_plan exDoc
      { fill_plan := [.tableFill (some (-5)) (some 1) [⟨some 0, some "X"⟩]] } =
      .error .indexError := rfl

/-- C8, amended: `execute_fill_plan` never raises provided every index
of the plan is non-negative and every table of the document has at
least one row; under those conditions every per-cell and per-paragraph
failure is isolated and the function returns the `(filled, failed)`
counts together with the saved document.  (Unrestricted, the claim is
false: see the `table_idx = -5` counterexample, where Python raises
`IndexError`.) -/
theorem c8_no_raise (doc : Doc) (plan : FillPlan)
    (hne : tablesNonempty doc = true) (hnn : planIdxNonneg plan = true) :
    ∃ res, execute_fill_plan doc plan = .ok res := by
  unfold planIdxNonneg at hnn
  rw [List.all_eq_true] at hnn
  obtain ⟨res, hres, _⟩ := execItems_nonneg_ok plan.fill_plan doc hne hnn
  exact ⟨res, hres⟩

/-- Witness for `c8_no_raise`: a two-item plan (one table fill, one
paragraph replacement) on the example document. -/
theorem c8_no_raise_witness :
    tablesNonempty exDoc = true ∧
    planIdxNonneg { fill_plan := [.tableFill (some 0) (some 1) [⟨some 0, some "filled"⟩],
      .paragraphFill (some "replace") (some 0) none (some "hello")] } = true ∧
    ∃ res, execute_fill_plan exDoc
      { fill_plan := [.tableFill (some 0) (some 1) [⟨some 0, some "filled"⟩],
        .paragraphFill (some "replace") (some 0) none (some "hello")] } = .ok res :=
  ⟨rfl, rfl, c8_no_raise exDoc
    { fill_plan := [.tableFill (some 0) (some 1) [⟨some 0, some "filled"⟩],
      .paragraphFill (some "replace") (some 0) none (some "hello")] } rfl rfl⟩

/-! ## C9: the placeholder fast path replaces only the first matched marker -/

theorem lazyKey_some_length (l : List Char) :
    ∀ p, lazyKey l = some p → 3 ≤ l.length := by
  induction l with
  | nil => intro p h; simp [lazyKey] at h
  | cons c rest ih =>
    intro p h
    simp only [lazyKey] at h
    by_cases hc : c = '\n'
    · simp [hc] at h
    · rw [if_neg hc] at h
      by_cases ht : rest.take 2 = [rbrace, rbrace]
      · have hlen : 2 ≤ rest.length := by
          have := congrArg List.length ht
          simp [List.length_take] at this
          omega
        simp only [List.length_cons]
        omega
      · rw [if_neg ht] at h
        cases hr : lazyKey rest with
        | some q =>
          have := ih q hr
          simp only [List.length_cons]
          omega
        | none => rw [hr] at h; cases h

theorem lazyKey_append (xs ys : List Char) :
    ∀ p, lazyKey xs = some p → lazyKey (xs ++ ys) = some (p.1, p.2 ++ ys) := by
  induction xs with
  | nil => intro p h; simp [lazyKey] at h
  | cons c rest ih =>
    intro p h
    simp only [lazyKey] at h
    rw [List.cons_append]
    simp only [lazyKey]
    by_cases hc : c = '\n'
    · simp [hc] at h
    · rw [if_neg hc] at h
      rw [if_neg hc]
      by_cases ht : rest.take 2 = [rbrace, rbrace]
      · rw [if_pos ht] at h
        cases h
        have hlen : 2 ≤ rest.length := by
          have := congrArg List.length ht
          simp [List.length_take] at this
          omega
        rw [if_pos (by rw [List.take_append_of_le_length hlen]; exact ht)]
        rw [List.drop_append_of_le_length hlen]
      · rw [if_neg ht] at h
        cases hr : lazyKey rest with
        | none => rw [hr] at h; cases h
        | some q =>
          rw [hr] at h
          cases h
          have hlen : 2 ≤ rest.length := by
            have := lazyKey_some_length rest q hr
            omega
          rw [if_neg (by rw [List.take_append_of_le_length hlen]; exact ht)]
          rw [ih q hr]

theorem findPH_append_right (xs ys : List Char) :
    ∀ q, findPH xs = some q → ∃ qq, findPH (xs ++ ys) = some qq := by
  induction xs with
  | nil => intro q h; simp [findPH] at h
  | cons c rest ih =>
    intro q h
    simp only [findPH] at h
    rw [List.cons_append]
    simp only [findPH]
    by_cases hc : c = lbrace ∧ rest.head? = some lbrace
    · have hrest : rest ≠ [] := by
        intro hr0
        rw [hr0] at hc
        simp at hc
      have hc2 : c = lbrace ∧ (rest ++ ys).head? = some lbrace := by
        obtain ⟨h1, h2⟩ := hc
        refine ⟨h1, ?_⟩
        cases rest with
        | nil => exact absurd rfl hrest
        | cons a r => simpa using h2
      rw [if_pos hc] at h
      rw [if_pos hc2]
      have htail : (rest ++ ys).tail = rest.tail ++ ys := by
        cases rest with
        | nil => exact absurd rfl hrest
        | cons a r => rfl
      rw [htail]
      cases hk : lazyKey rest.tail with
      | some pk =>
        rw [lazyKey_append rest.tail ys pk hk]
        exact ⟨_, rfl⟩
      | none =>
        rw [hk] at h
        cases hk2 : lazyKey (rest.tail ++ ys) with
        | some pk2 => exact ⟨_, rfl⟩
        | none =>
          cases hr : findPH rest with
          | some q2 =>
            obtain ⟨qq, hqq⟩ := ih q2 hr
            rw [hqq]
            exact ⟨_, rfl⟩
          | none => rw [hr] at h; cases h
    · rw [if_neg hc] at h
      cases hr : findPH rest with
      | none => rw [hr] at h; cases h
      | some q2 =>
        have hrest : rest ≠ [] := by
          intro hr0
          rw [hr0] at hr
          simp [findPH] at hr
        have hc2 : ¬(c = lbrace ∧ (rest ++ ys).head? = some lbrace) := by
          intro hx
          obtain ⟨h1, h2⟩ := hx
          apply hc
          refine ⟨h1, ?_⟩
          cases rest with
          | nil => exact absurd rfl hrest
          | cons a r => simpa using h2
        rw [if_neg hc2]
        obtain ⟨qq, hqq⟩ := ih q2 hr
        rw [hqq]
        exact ⟨_, rfl⟩

theorem findPH_append_left (a xs : List Char) (q : List Char × List Char × List Char)
    (h : findPH xs = some q) : ∃ qq, findPH (a ++ xs) = some qq := by
  induction a with
  | nil => exact ⟨q, h⟩
  | cons c a2 ih =>
    obtain ⟨qq, hqq⟩ := ih
    rw [List.cons_append]
    simp only [findPH]
    by_cases hc : c = lbrace ∧ (a2 ++ xs).head? = some lbrace
    · rw [if_pos hc]
      cases hk : lazyKey (a2 ++ xs).tail with
      | some pk => exact ⟨_, rfl⟩
      | none =>
        rw [hqq]
        exact ⟨_, rfl⟩
    · rw [if_neg hc]
      rw [hqq]
      exact ⟨_, rfl⟩

theorem findPH_some_contains (xs : List Char) :
    ∀ q, findPH xs = some q → listContainsSub phOpen xs = true := by
  induction xs with
  | nil => intro q h; simp [findPH] at h
  | cons c rest ih =>
    intro q h
    simp only [findPH] at h
    simp only [listContainsSub]
    by_cases hc : c = lbrace ∧ rest.head? = some lbrace
    · obtain ⟨h1, h2⟩ := hc
      cases rest with
      | nil => simp at h2
      | cons b r =>
        have hb : b = lbrace := by simpa using h2
        have hpre : phOpen.isPrefixOf (c :: b :: r) = true := by
          simp [phOpen, List.isPrefixOf, h1, hb]
        rw [hpre, Bool.true_or]
    · rw [if_neg hc] at h
      cases hr : findPH rest with
      | some q2 =>
        rw [ih q2 hr, Bool.or_true]
      | none => rw [hr] at h; cases h

theorem findMatches_isEmpty_false (cs : List Char) (q : List Char × List Char × List Char)
    (h : findPH cs = some q) : (findMatches cs).isEmpty = false := by
  have he : findMatches cs =
      match findPH cs with
      | some q2 => q2.2.1 :: findMatchesFuel cs.length q2.2.2
      | none => [] := rfl
  rw [he, h]
  rfl

theorem firstHit_some_findPH (repl : List (String × String)) (cs : List Char)
    (p : List Char × String) (h : firstHit repl cs = some p) :
    ∃ q, findPH cs = some q := by
  cases hq : findPH cs with
  | some q => exact ⟨q, rfl⟩
  | none =>
    have he : firstHit repl cs =
        match findPH cs with
        | some q2 =>
          match lookupKey repl (keyNorm q2.2.1) with
          | some v => some (phOpen ++ q2.2.1 ++ phClose, v)
          | none => firstHitFuel repl cs.length q2.2.2
        | none => none := rfl
    rw [he, hq] at h
    cases h

theorem simplePath_append_hit (repl : List (String × String)) (pre : List String)
    (hpre : ∀ s ∈ pre, firstHit repl s.data = none)
    (r : String) (rest : List String) (ph : List Char) (v : String)
    (hr : firstHit repl r.data = some (ph, v)) :
    simplePath repl (pre ++ r :: rest) =
      some (pre ++ String.mk (pyReplaceList ph (_md_to_plain v).data r.data) :: rest) := by
  induction pre with
  | nil =>
    dsimp only [simplePath]
    rw [hr]
    rfl
  | cons s pre2 ih =>
    rw [List.cons_append, List.cons_append]
    dsimp only [simplePath]
    rw [hpre s (List.mem_cons_self _ _),
      ih (fun t ht => hpre t (List.mem_cons_of_mem _ ht))]
    rfl

/-- C9, amended: the fast path performs at most one replacement per
paragraph and then returns.  (a) If the runs split as `pre ++ r :: rest`
where no run of `pre` contains a placeholder with a known key and `r`
contains one, then exactly run `r` is rewritten — all occurrences of
that first matched marker inside `r` via `str.replace` — and every
later marker survives.  (b) If no single run contains a whole matched
marker but the joined paragraph text does, the paragraph is rebuilt
with only that first matched marker replaced throughout the joined
text.  The original claim (every marker everywhere is replaced, no
literal opening braces remain) is refuted by the two-marker
counterexample. -/
theorem c9_placeholder_fast_path (repl : List (String × String)) (p : Para) :
    (∀ pre r rest ph v, p.runs = pre ++ r :: rest →
      (∀ s ∈ pre, firstHit repl s.data = none) →
      firstHit repl r.data = some (ph, v) →
      _replace_in_paragraph repl p =
        { p with runs :=
            pre ++ String.mk (pyReplaceList ph (_md_to_plain v).data r.data) :: rest }) ∧
    (∀ ph v, simplePath repl p.runs = none →
      firstHit repl ((p.runs.map String.data).join) = some (ph, v) →
      _replace_in_paragraph repl p =
        { p with runs := _rebuild_paragraph_with_replacement p.runs ph (_md_to_plain v) }) := by
  constructor
  · intro pre r rest ph v hruns hpre hhit
    obtain ⟨q0, hq0⟩ := firstHit_some_findPH repl r.data (ph, v) hhit
    obtain ⟨q1, hq1⟩ := findPH_append_right r.data ((rest.map String.data).join) q0 hq0
    obtain ⟨q2, hq2⟩ := findPH_append_left ((pre.map String.data).join) _ q1 hq1
    have hjoin : ((pre ++ r :: rest).map String.data).join =
        (pre.map String.data).join ++ (r.data ++ (rest.map String.data).join) := by
      simp
    unfold _replace_in_paragraph
    dsimp only
    rw [hruns, hjoin]
    rw [if_neg (fun hno => hno (findPH_some_contains _ q2 hq2))]
    rw [if_neg (fun hemp => by
      rw [findMatches_isEmpty_false _ q2 hq2] at hemp
      exact Bool.false_ne_true hemp)]
    rw [simplePath_append_hit repl pre hpre r rest ph v hhit]
  · intro ph v hsp hfh
    obtain ⟨q0, hq0⟩ := firstHit_some_findPH repl _ (ph, v) hfh
    unfold _replace_in_paragraph
    dsimp only
    rw [if_neg (fun hno => hno (findPH_some_contains _ q0 hq0))]
    rw [if_neg (fun hemp => by
      rw [findMatches_isEmpty_false _ q0 hq0] at hemp
      exact Bool.false_ne_true hemp)]
    rw [hsp, hfh]

/-- A paragraph holding two known markers keeps the second one: the
fast path replaces the first matched marker and returns, so a literal
opening brace pair survives in the saved document even though its key
is in the replacement map. -/
theorem c9_counterexample :
    (fill_docx_template
      { paragraphs := [{ style := "Normal", runs := ["\x7b\x7ba\x7d\x7d \x7b\x7bb\x7d\x7d"] }],
        tables := [], sections := [] }
      { full_markdown := "", sections := [] }
      (some [("a", "x"), ("b", "y")])).paragraphs =
      [{ style := "Normal", runs := ["x \x7b\x7bb\x7d\x7d"] }] ∧
    lookupKey (_build_replacement_map { full_markdown := "", sections := [] }
      (some [("a", "x"), ("b", "y")])) "b" = some "y" := ⟨by decide, by decide⟩

/-- Witness for `c9_placeholder_fast_path`: the single-marker scenario
from the specification, in its single-run form (simple path) and its
split-run form (rebuild path). -/
theorem c9_placeholder_fast_path_witness :
    firstHit [("summary", "홍길동")] "소개: \x7b\x7bsummary\x7d\x7d님 환영".data =
      some ((phOpen ++ "summary".data ++ phClose), "홍길동") ∧
    _replace_in_paragraph [("summary", "홍길동")]
      { style := "Normal", runs := ["소개: \x7b\x7bsummary\x7d\x7d님 환영"] } =
      { style := "Normal", runs := ["소개: 홍길동님 환영"] } ∧
    simplePath [("summary", "홍길동")] ["소개: \x7b\x7bsum", "mary\x7d\x7d님 환영"] = none ∧
    _replace_in_paragraph [("summary", "홍길동")]
      { style := "Normal", runs := ["소개: \x7b\x7bsum", "mary\x7d\x7d님 환영"] } =
      { style := "Normal", runs := ["소개: 홍길동님 환영", ""] } :=
  ⟨by decide,
   by
     have h := (c9_placeholder_fast_path [("summary", "홍길동")]
       { style := "Normal", runs := ["소개: \x7b\x7bsummary\x7d\x7d님 환영"] }).1
       [] "소개: \x7b\x7bsummary\x7d\x7d님 환영" [] (phOpen ++ "summary".data ++ phClose)
       "홍길동" rfl (by intro s hs; cases hs) (by decide)
     exact h.trans (by decide),
   by decide,
   by
     have h := (c9_placeholder_fast_path [("summary", "홍길동")]
       { style := "Normal", runs := ["소개: \x7b\x7bsum", "mary\x7d\x7d님 환영"] }).2
       (phOpen ++ "summary".data ++ phClose) "홍길동" (by decide) (by decide)
     exact h.trans (by decide)⟩

/-! ## C1: header immutability -/

/-- The header row indices of table `t` in the structure description
extracted from `doc`. -/
def headerIdxs (doc : Doc) (t : Nat) : List Nat :=
  (((extract_docx_structure doc).tables.get? t).map
    (fun ti => ti.header_rows.map (fun r => r.row))).getD []

/-- The `tcId`s of row `j` of table `t` of `doc`. -/
def rowIdsAt (doc : Doc) (t j : Nat) : List Nat :=
  (((doc.tables.get? t).bind (fun tbl => tbl.rows.get? j)).getD []).map (fun tc => tc.tcId)

/-- All `tcId`s belonging to extracted header rows of `doc`. -/
def headerTcIds (doc : Doc) : List Nat :=
  ((List.range doc.tables.length).map (fun t =>
    ((headerIdxs doc t).map (fun j => rowIdsAt doc t j)).join)).join

/-- All `tcId`s belonging to non-header rows of `doc`. -/
def nonHeaderTcIds (doc : Doc) : List Nat :=
  ((List.range doc.tables.length).map (fun t =>
    (((List.range (((doc.tables.get? t).map (fun tbl => tbl.rows.length)).getD 0)).filter
      (fun j => decide (j ∉ headerIdxs doc t))).map (fun j => rowIdsAt doc t j)).join)).join

/-- No merged cell spans both a header row and a non-header row. -/
def headerDisjoint (doc : Doc) : Bool :=
  (headerTcIds doc).all (fun x => decide (x ∉ nonHeaderTcIds doc))

theorem headerIdxs_eq (doc : Doc) (t : Nat) (tbl : DocTable)
    (ht : doc.tables.get? t = some tbl) :
    headerIdxs doc t = (extractTableInfo t tbl).header_rows.map (fun r => r.row) := by
  unfold headerIdxs
  rw [extract_tables_get? doc t tbl ht]
  rfl

theorem headerIdxs_lt (doc : Doc) (t : Nat) (tbl : DocTable)
    (ht : doc.tables.get? t = some tbl) : ∀ j ∈ headerIdxs doc t, j < tbl.rows.length := by
  intro j hj
  rw [headerIdxs_eq doc t tbl ht] at hj
  rw [List.mem_map] at hj
  obtain ⟨hr, hmem, rfl⟩ := hj
  exact extractTableInfo_header_row_lt t tbl hr hmem

theorem rowIdsAt_mem_docTcIds (doc : Doc) (t j x : Nat) (hx : x ∈ rowIdsAt doc t j) :
    x ∈ docTcIds doc := by
  unfold rowIdsAt at hx
  cases hg : doc.tables.get? t with
  | none => rw [hg] at hx; simp at hx
  | some tbl =>
    rw [hg] at hx
    simp only [Option.some_bind] at hx
    cases hr : tbl.rows.get? j with
    | none => rw [hr] at hx; simp at hx
    | some row =>
      rw [hr] at hx
      simp only [Option.getD_some] at hx
      rw [List.mem_map] at hx
      obtain ⟨tc, htc, rfl⟩ := hx
      exact mem_docTcIds doc t tbl row tc hg (List.get?_mem hr) htc

theorem mem_headerTcIds (doc : Doc) (t j x : Nat) (ht : t < doc.tables.length)
    (hj : j ∈ headerIdxs doc t) (hx : x ∈ rowIdsAt doc t j) : x ∈ headerTcIds doc := by
  unfold headerTcIds
  rw [List.mem_join]
  refine ⟨_, List.mem_map_of_mem _ (List.mem_range.mpr ht), ?_⟩
  rw [List.mem_join]
  exact ⟨_, List.mem_map_of_mem _ hj, hx⟩

theorem mem_nonHeaderTcIds (doc : Doc) (t j x : Nat) (ht : t < doc.tables.length)
    (hjlen : j < (((doc.tables.get? t).map (fun tbl => tbl.rows.length)).getD 0))
    (hj : j ∉ headerIdxs doc t) (hx : x ∈ rowIdsAt doc t j) : x ∈ nonHeaderTcIds doc := by
  unfold nonHeaderTcIds
  rw [List.mem_join]
  refine ⟨_, List.mem_map_of_mem _ (List.mem_range.mpr ht), ?_⟩
  rw [List.mem_join]
  refine ⟨_, List.mem_map_of_mem _ ?_, hx⟩
  rw [List.mem_filter]
  exact ⟨List.mem_range.mpr hjlen, by rw [decide_eq_true_eq]; exact hj⟩

theorem headerDisjoint_spec (doc : Doc) (h : headerDisjoint doc = true) :
    ∀ x ∈ headerTcIds doc, x ∉ nonHeaderTcIds doc := by
  unfold headerDisjoint at h
  rw [List.all_eq_true] at h
  intro x hx
  have := h x hx
  rw [decide_eq_true_eq] at this
  exact this

/-- Validating `item :: rest` validates `rest` with some updated seen
set, and the item contributes a prefix of the error list. -/
theorem validateItems_cons_ok (tables : List TableInfo) (paragraphs : List ParaInfo)
    (i : Nat) (seen : List (Int × Int × Int)) (item : FillItem) (rest : List FillItem)
    (errs : List VError)
    (h : validateItems tables paragraphs i seen (item :: rest) = .ok errs) :
    ∃ pre es seen2, validateItems tables paragraphs (i + 1) seen2 rest = .ok es ∧
      errs = pre ++ es := by
  cases item with
  | otherTarget =>
    simp only [validateItems] at h
    exact ⟨[], errs, seen, h, rfl⟩
  | paragraphFill a p q v =>
    simp only [validateItems] at h
    obtain ⟨errs2, hrec, heq⟩ := except_map_ok _ _ _ h
    exact ⟨_, errs2, seen, hrec, heq⟩
  | tableFill tidxOpt rowOpt fills =>
    simp only [validateItems] at h
    by_cases hge : tidxOpt.getD 0 ≥ (tables.length : Int)
    · rw [if_pos hge] at h
      obtain ⟨errs2, hrec, heq⟩ := except_map_ok _ _ _ h
      exact ⟨[VError.tableIdxRange i (tidxOpt.getD 0) tables.length], errs2, seen, hrec,
        by rw [heq]; rfl⟩
    · rw [if_neg hge] at h
      cases rowOpt with
      | none =>
        dsimp only at h
        obtain ⟨errs2, hrec, heq⟩ := except_map_ok _ _ _ h
        exact ⟨[VError.rowMissing i], errs2, seen, hrec, by rw [heq]; rfl⟩
      | some row =>
        dsimp only at h
        by_cases hhd : (((headerRowsByTable tables (tidxOpt.getD 0)).getD []).any
            (fun hh => (hh : Int) == row)) = true
        · rw [if_pos hhd] at h
          obtain ⟨errs2, hrec, heq⟩ := except_map_ok _ _ _ h
          exact ⟨[VError.headerRowProtected i row], errs2, seen, hrec, by rw [heq]; rfl⟩
        · rw [if_neg hhd] at h
          cases hpg : pyGet tables (tidxOpt.getD 0) with
          | none =>
            rw [hpg] at h
            cases h
          | some ti =>
            rw [hpg] at h
            dsimp only at h
            by_cases hrr : row ≥ (ti.rows : Int) + (MAX_ADD_ROWS : Int)
            · rw [if_pos hrr] at h
              obtain ⟨errs2, hrec, heq⟩ := except_map_ok _ _ _ h
              exact ⟨[VError.rowRange i row ti.rows MAX_ADD_ROWS], errs2, seen, hrec,
                by rw [heq]; rfl⟩
            · rw [if_neg hrr] at h
              obtain ⟨errs2, hrec, heq⟩ := except_map_ok _ _ _ h
              exact ⟨_, errs2, _, hrec, heq⟩

/-- Part (a) of the header-immutability claim, for the validator: a
table item whose (defaulted) `table_idx` passes the range check and
whose `row` matches one of that table's header rows contributes a
header-protection error to the returned list. -/
theorem validateItems_header_mem (tables : List TableInfo) (paragraphs : List ParaInfo) :
    ∀ (items : List FillItem) (i : Nat) (seen : List (Int × Int × Int)) (errs : List VError),
      validateItems tables paragraphs i seen items = .ok errs →
      ∀ k tidx rowOpt fills, items.get? k = some (.tableFill tidx rowOpt fills) →
      ∀ row, rowOpt = some row →
      ¬ (tidx.getD 0 ≥ (tables.length : Int)) →
      (((headerRowsByTable tables (tidx.getD 0)).getD []).any (fun hh => (hh : Int) == row))
        = true →
      VError.headerRowProtected (i + k) row ∈ errs := by
  intro items
  induction items with
  | nil =>
    intro i seen errs hv k tidx rowOpt fills hk
    simp at hk
  | cons item rest ih =>
    intro i seen errs hv k tidx rowOpt fills hk row hrow hlt hany
    cases k with
    | zero =>
      have hk2 : item = FillItem.tableFill tidx rowOpt fills := by
        simpa using hk
      subst hk2
      subst hrow
      simp only [validateItems] at hv
      rw [if_neg hlt] at hv
      rw [if_pos hany] at hv
      obtain ⟨es, hrec, heq⟩ := except_map_ok _ _ _ hv
      rw [heq]
      simp only [Nat.add_zero]
      exact List.mem_cons_self _ _
    | succ k2 =>
      obtain ⟨pre, es, seen2, hrec, heq⟩ :=
        validateItems_cons_ok tables paragraphs i seen item rest errs hv
      have hmem := ih (i + 1) seen2 es hrec k2 tidx rowOpt fills hk row hrow hlt hany
      rw [heq]
      have hidx : i + 1 + k2 = i + (k2 + 1) := by omega
      rw [← hidx]
      exact List.mem_append_right _ hmem

/-- When the whole validation returns no error, a leading table item
passed the range check and, if it carries a row, the header check. -/
theorem validateItems_nil_head_table (tables : List TableInfo) (paragraphs : List ParaInfo)
    (i : Nat) (seen : List (Int × Int × Int)) (tidx rowOpt) (fills : List FillEntry)
    (rest : List FillItem)
    (hv : validateItems tables paragraphs i seen (.tableFill tidx rowOpt fills :: rest) =
      .ok []) :
    tidx.getD 0 < (tables.length : Int) ∧
    ∀ rw2, rowOpt = some rw2 →
      (((headerRowsByTable tables (tidx.getD 0)).getD []).any (fun hh => (hh : Int) == rw2))
        = false := by
  simp only [validateItems] at hv
  by_cases hge : tidx.getD 0 ≥ (tables.length : Int)
  · rw [if_pos hge] at hv
    obtain ⟨errs2, hrec, heq⟩ := except_map_ok _ _ _ hv
    cases heq
  · rw [if_neg hge] at hv
    refine ⟨lt_of_not_ge hge, ?_⟩
    intro rw2 hrw
    subst hrw
    dsimp only at hv
    by_cases hhd : (((headerRowsByTable tables (tidx.getD 0)).getD []).any
        (fun hh => (hh : Int) == rw2)) = true
    · rw [if_pos hhd] at hv
      obtain ⟨errs2, hrec, heq⟩ := except_map_ok _ _ _ hv
      cases heq
    · exact Bool.eq_false_iff.mpr hhd

/-- When validation reports no error at all, every table item passed
the range check and (when it carries a row) the header check. -/
theorem validateItems_nil_facts (tables : List TableInfo) (paragraphs : List ParaInfo) :
    ∀ (items : List FillItem) (i : Nat) (seen : List (Int × Int × Int)),
      validateItems tables paragraphs i seen items = .ok [] →
      ∀ item ∈ items, ∀ tidx rowOpt fills, item = .tableFill tidx rowOpt fills →
        tidx.getD 0 < (tables.length : Int) ∧
        ∀ rw2, rowOpt = some rw2 →
          (((headerRowsByTable tables (tidx.getD 0)).getD []).any
            (fun hh => (hh : Int) == rw2)) = false := by
  intro items
  induction items with
  | nil =>
    intro i seen hv item hmem
    cases hmem
  | cons item0 rest ih =>
    intro i seen hv item hmem tidx rowOpt fills hitem
    rcases List.mem_cons.mp hmem with hh | hh
    · subst hh
      subst hitem
      exact validateItems_nil_head_table tables paragraphs i seen tidx rowOpt fills rest hv
    · obtain ⟨pre, es, seen2, hrec, heq⟩ :=
        validateItems_cons_ok tables paragraphs i seen item0 rest [] hv
      obtain ⟨hpre, hes⟩ := List.append_eq_nil.mp heq.symm
      subst hes
      exact ih (i + 1) seen2 hrec item hh tidx rowOpt fills hitem

/-- Invariant relating the executing document to the original: table
count unchanged, cell identities only grow, rows at original positions
keep their cell identities, extracted header rows are untouched, and
appended rows carry only fresh identities. -/
def headerInv (doc0 doc : Doc) : Prop :=
  doc.tables.length = doc0.tables.length ∧
  (∀ x ∈ docTcIds doc0, x ∈ docTcIds doc) ∧
  (∀ t tbl0 tbl, doc0.tables.get? t = some tbl0 → doc.tables.get? t = some tbl →
    tbl0.rows.length ≤ tbl.rows.length ∧
    (∀ j, j < tbl0.rows.length →
      (tbl.rows.get? j).map (fun r => r.map (fun tc => tc.tcId)) =
      (tbl0.rows.get? j).map (fun r => r.map (fun tc => tc.tcId))) ∧
    (∀ j, j ∈ headerIdxs doc0 t → tbl.rows.get? j = tbl0.rows.get? j) ∧
    (∀ j r, tbl0.rows.length ≤ j → tbl.rows.get? j = some r →
      ∀ tc ∈ r, ∀ x ∈ docTcIds doc0, x < tc.tcId))

theorem headerInv_refl (doc : Doc) : headerInv doc doc := by
  refine ⟨rfl, fun x hx => hx, ?_⟩
  intro t tbl0 tbl h0 h
  rw [h0] at h
  cases h
  refine ⟨le_refl _, fun j _ => rfl, fun j _ => rfl, ?_⟩
  intro j r hj hr
  rw [List.get?_eq_none.mpr hj] at hr
  cases hr

theorem headerInv_tables_eq (doc0 doc doc2 : Doc) (heq : doc2.tables = doc.tables)
    (h : headerInv doc0 doc) : headerInv doc0 doc2 := by
  obtain ⟨h1, h2, h3⟩ := h
  have hids : docTcIds doc2 = docTcIds doc := by
    unfold docTcIds
    rw [heq]
  refine ⟨by rw [heq]; exact h1, by rw [hids]; exact h2, ?_⟩
  intro t tbl0 tbl h0 hg
  rw [heq] at hg
  exact h3 t tbl0 tbl h0 hg

/-- Any `.ok` outcome of a paragraph item leaves the tables untouched. -/
theorem para_fill_tables_eq (doc : Doc) (a : Option String) (p q : Option Int)
    (v : Option String) (doc2 : Doc)
    (h : _execute_paragraph_fill doc a p q v = .ok doc2) : doc2.tables = doc.tables := by
  unfold _execute_paragraph_fill at h
  by_cases hact : a.getD "replace" = "replace"
  · rw [if_pos hact] at h
    cases p with
    | none => cases h; rfl
    | some idx =>
      dsimp only at h
      by_cases hi : idx < (doc.paragraphs.length : Int)
      · rw [if_pos hi] at h
        cases hpy : pyIdx doc.paragraphs.length idx with
        | none => rw [hpy] at h; cases h
        | some k =>
          rw [hpy] at h
          dsimp only at h
          cases hgp : doc.paragraphs.get? k with
          | none => rw [hgp] at h; cases h
          | some para =>
            rw [hgp] at h
            dsimp only at h
            cases h
            rfl
      · rw [if_neg hi] at h
        cases h
        rfl
  · rw [if_neg hact] at h
    by_cases hact2 : a.getD "replace" = "insert"
    · rw [if_pos hact2] at h
      cases q with
      | none => cases h; rfl
      | some idx =>
        dsimp only at h
        by_cases hi : idx < (doc.paragraphs.length : Int)
        · rw [if_pos hi] at h
          cases hpy : pyIdx doc.paragraphs.length idx with
          | none => rw [hpy] at h; cases h
          | some k =>
            rw [hpy] at h
            dsimp only at h
            cases hgp : doc.paragraphs.get? k with
            | none => rw [hgp] at h; cases h
            | some anchor =>
              rw [hgp] at h
              dsimp only at h
              cases h
              rfl
        · rw [if_neg hi] at h
          cases h
          rfl
    · rw [if_neg hact2] at h
      cases h
      rfl

theorem uniqueAux_mem (row : TableRow) :
    ∀ seen k p, p ∈ _get_unique_cells_with_colAux seen k row → p.2 ∈ row := by
  induction row with
  | nil =>
    intro seen k p hp
    simp [_get_unique_cells_with_colAux] at hp
  | cons tc rest ih =>
    intro seen k p hp
    simp only [_get_unique_cells_with_colAux] at hp
    by_cases hs : tc.tcId ∈ seen
    · rw [if_pos hs] at hp
      exact List.mem_cons_of_mem _ (ih _ _ p hp)
    · rw [if_neg hs] at hp
      rcases List.mem_cons.mp hp with hh | hh
      · cases hh
        exact List.mem_cons_self _ _
      · exact List.mem_cons_of_mem _ (ih _ _ p hh)

theorem unique_cells_mem (row : TableRow) (p : Nat × Tc)
    (hp : p ∈ _get_unique_cells_with_col row) : p.2 ∈ row :=
  uniqueAux_mem row [] 0 p hp

theorem headerTcIds_sub_docTcIds (doc : Doc) : ∀ x ∈ headerTcIds doc, x ∈ docTcIds doc := by
  intro x hx
  unfold headerTcIds at hx
  rw [List.mem_join] at hx
  obtain ⟨l, hl, hx2⟩ := hx
  rw [List.mem_map] at hl
  obtain ⟨t, _, rfl⟩ := hl
  rw [List.mem_join] at hx2
  obtain ⟨l2, hl2, hx3⟩ := hx2
  rw [List.mem_map] at hl2
  obtain ⟨j, _, rfl⟩ := hl2
  exact rowIdsAt_mem_docTcIds doc t j x hx3

theorem addRowsLoop_empty_error (doc : Doc) (t : Nat) (row_idx : Int) (n : Nat)
    (tbl : DocTable) (ht : doc.tables.get? t = some tbl) (hnil : tbl.rows = [])
    (h0 : 0 ≤ row_idx) :
    addRowsLoop doc t row_idx (n + 1) = .error .indexError := by
  unfold addRowsLoop
  rw [ht]
  dsimp only
  rw [if_pos (by rw [hnil]; simpa using h0)]
  unfold _add_table_row
  rw [ht]
  dsimp only
  rw [hnil]
  rfl

/-- `execFills` preserves the invariant as long as no written cell
aliases a header cell of the original document. -/
theorem execFills_headerInv (doc0 doc : Doc) (uc : List (Nat × Tc)) (fills : List FillEntry)
    (hinv : headerInv doc0 doc)
    (hsafe : ∀ p ∈ uc, p.2.tcId ∉ headerTcIds doc0) :
    headerInv doc0 (execFills doc uc fills).1 := by
  obtain ⟨h1, h2, h3⟩ := hinv
  refine ⟨?_, ?_, ?_⟩
  · rw [execFills_length]
    exact h1
  · intro x hx
    rw [execFills_tcIds]
    exact h2 x hx
  · intro t tbl0 tblE h0 hgE
    have hlt : t < doc.tables.length := by
      have hltE : t < (execFills doc uc fills).1.tables.length := by
        by_contra hcx
        rw [List.get?_eq_none.mpr (by omega)] at hgE
        cases hgE
      rw [execFills_length] at hltE
      exact hltE
    obtain ⟨tbl, htbl⟩ : ∃ tbl, doc.tables.get? t = some tbl := ⟨_, List.get?_eq_get hlt⟩
    obtain ⟨tblE2, hgE2, hlenE, hrowE⟩ := execFills_shape uc fills doc t tbl htbl
    rw [hgE2] at hgE
    cases hgE
    obtain ⟨ha, hb, hc, hd⟩ := h3 t tbl0 tbl h0 htbl
    refine ⟨by rw [hlenE]; exact ha, ?_, ?_, ?_⟩
    · intro j hj
      have hjc : j < tbl.rows.length := lt_of_lt_of_le hj ha
      obtain ⟨rowc, hrowc⟩ : ∃ r, tbl.rows.get? j = some r := ⟨_, List.get?_eq_get hjc⟩
      obtain ⟨row2, hr2, hrid, -⟩ := hrowE j rowc hrowc
      have hbj := hb j hj
      rw [hrowc] at hbj
      rw [hr2, ← hbj]
      simp only [Option.map_some']
      rw [hrid]
    · intro j hj
      have hcj := hc j hj
      have hjlt : j < tbl0.rows.length := headerIdxs_lt doc0 t tbl0 h0 j hj
      have hjc : j < tbl.rows.length := lt_of_lt_of_le hjlt ha
      obtain ⟨rowc, hrowc⟩ : ∃ r, tbl.rows.get? j = some r := ⟨_, List.get?_eq_get hjc⟩
      obtain ⟨row2, hr2, hrid, hunch⟩ := hrowE j rowc hrowc
      have hrowc0 : tbl0.rows.get? j = some rowc := by
        rw [← hcj]
        exact hrowc
      have ht0lt : t < doc0.tables.length := by
        by_contra hcx
        rw [List.get?_eq_none.mpr (by omega)] at h0
        cases h0
      have hunch2 : row2 = rowc := by
        apply hunch
        intro tc htc pp hpp
        have hidmem : tc.tcId ∈ rowIdsAt doc0 t j := by
          unfold rowIdsAt
          rw [h0]
          simp only [Option.some_bind]
          rw [hrowc0]
          simp only [Option.getD_some]
          exact List.mem_map_of_mem _ htc
        have hhdr : tc.tcId ∈ headerTcIds doc0 :=
          mem_headerTcIds doc0 t j tc.tcId ht0lt hj hidmem
        intro hcontra
        rw [hcontra] at hhdr
        exact hsafe pp hpp hhdr
      rw [hr2, hunch2, hrowc0]
    · intro j r hj hr tc htc x hx
      have hjc : j < tbl.rows.length := by
        have hjE : j < tblE.rows.length := by
          by_contra hcx
          rw [List.get?_eq_none.mpr (by omega)] at hr
          cases hr
        rw [hlenE] at hjE
        exact hjE
      obtain ⟨rowc, hrowc⟩ : ∃ r2, tbl.rows.get? j = some r2 := ⟨_, List.get?_eq_get hjc⟩
      obtain ⟨row2, hr2, hrid, -⟩ := hrowE j rowc hrowc
      rw [hr2] at hr
      cases hr
      have hmemid : tc.tcId ∈ rowc.map (fun tc => tc.tcId) := by
        rw [← hrid]
        exact List.mem_map_of_mem _ htc
      rw [List.mem_map] at hmemid
      obtain ⟨tc0, htc0, hid0⟩ := hmemid
      have := hd j rowc hj hrowc tc0 htc0 x hx
      omega

/-- The row-adding loop preserves the invariant. -/
theorem addRows_headerInv (doc0 doc : Doc) (t : Nat) (tbl : DocTable)
    (htbl : doc.tables.get? t = some tbl) (hinv : headerInv doc0 doc)
    (doc2 : Doc) (tbl2 : DocTable) (hget2 : doc2.tables.get? t = some tbl2)
    (hlen2le : tbl.rows.length ≤ tbl2.rows.length)
    (hpre2 : ∀ j, j < tbl.rows.length → tbl2.rows.get? j = tbl.rows.get? j)
    (htlen2 : doc2.tables.length = doc.tables.length)
    (hoth2 : ∀ s, s ≠ t → doc2.tables.get? s = doc.tables.get? s)
    (hfresh2 : ∀ j r, tbl.rows.length ≤ j → tbl2.rows.get? j = some r →
      ∀ tc ∈ r, ∀ x ∈ docTcIds doc, x < tc.tcId)
    (hsub2 : ∀ x ∈ docTcIds doc, x ∈ docTcIds doc2) :
    headerInv doc0 doc2 := by
  obtain ⟨h1, h2, h3⟩ := hinv
  refine ⟨by rw [htlen2]; exact h1, fun x hx => hsub2 x (h2 x hx), ?_⟩
  intro s tbl0 tblc h0 hgc
  by_cases hst : s = t
  · subst hst
    rw [hget2] at hgc
    cases hgc
    obtain ⟨ha, hb, hc, hd⟩ := h3 s tbl0 tbl h0 htbl
    refine ⟨le_trans ha hlen2le, ?_, ?_, ?_⟩
    · intro j hj
      rw [hpre2 j (lt_of_lt_of_le hj ha)]
      exact hb j hj
    · intro j hj
      have hjlt : j < tbl0.rows.length := headerIdxs_lt doc0 s tbl0 h0 j hj
      rw [hpre2 j (lt_of_lt_of_le hjlt ha)]
      exact hc j hj
    · intro j r hj hr tc htc x hx
      by_cases hjc : j < tbl.rows.length
      · rw [hpre2 j hjc] at hr
        exact hd j r hj hr tc htc x hx
      · exact hfresh2 j r (by omega) hr tc htc x (h2 x hx)
  · rw [hoth2 s hst] at hgc
    exact h3 s tbl0 tblc h0 hgc

/-- After the row-adding loop, no cell of a validated (non-header)
target row aliases a header cell of the original document. -/
theorem target_row_safe (doc0 doc : Doc) (hdisj : headerDisjoint doc0 = true)
    (hinv : headerInv doc0 doc) (t : Nat) (tblc tbl2 : DocTable) (j : Nat)
    (htblc : doc.tables.get? t = some tblc)
    (hpre2 : ∀ k, k < tblc.rows.length → tbl2.rows.get? k = tblc.rows.get? k)
    (hfresh2 : ∀ k r, tblc.rows.length ≤ k → tbl2.rows.get? k = some r →
      ∀ tc ∈ r, ∀ x ∈ docTcIds doc, x < tc.tcId)
    (hjhdr : j ∉ headerIdxs doc0 t)
    (targetRow : TableRow) (htr : tbl2.rows.get? j = some targetRow) :
    ∀ tc ∈ targetRow, tc.tcId ∉ headerTcIds doc0 := by
  obtain ⟨h1, h2, h3⟩ := hinv
  have htlt : t < doc.tables.length := by
    by_contra hcx
    rw [List.get?_eq_none.mpr (by omega)] at htblc
    cases htblc
  have ht0lt : t < doc0.tables.length := by omega
  obtain ⟨tbl0, h0⟩ : ∃ tbl0, doc0.tables.get? t = some tbl0 := ⟨_, List.get?_eq_get ht0lt⟩
  obtain ⟨ha, hb, hc, hd⟩ := h3 t tbl0 tblc h0 htblc
  intro tc htc hhdr
  have hxdoc0 : tc.tcId ∈ docTcIds doc0 := headerTcIds_sub_docTcIds doc0 _ hhdr
  by_cases hj0 : j < tbl0.rows.length
  · have hjc : j < tblc.rows.length := lt_of_lt_of_le hj0 ha
    obtain ⟨rowc, hrowc⟩ : ∃ r, tblc.rows.get? j = some r := ⟨_, List.get?_eq_get hjc⟩
    have htr2 : targetRow = rowc := by
      have hpj := hpre2 j hjc
      rw [htr, hrowc] at hpj
      exact Option.some_inj.mp hpj
    obtain ⟨row0, hrow0⟩ : ∃ r, tbl0.rows.get? j = some r := ⟨_, List.get?_eq_get hj0⟩
    have hbj := hb j hj0
    rw [hrowc, hrow0] at hbj
    simp only [Option.map_some'] at hbj
    rw [Option.some_inj] at hbj
    have hidmem : tc.tcId ∈ rowIdsAt doc0 t j := by
      unfold rowIdsAt
      rw [h0]
      simp only [Option.some_bind]
      rw [hrow0]
      simp only [Option.getD_some]
      rw [← hbj]
      exact List.mem_map_of_mem _ (htr2 ▸ htc)
    have hnon : tc.tcId ∈ nonHeaderTcIds doc0 := by
      apply mem_nonHeaderTcIds doc0 t j _ ht0lt _ hjhdr hidmem
      rw [h0]
      simpa using hj0
    exact headerDisjoint_spec doc0 hdisj _ hhdr hnon
  · have hfr : ∀ x ∈ docTcIds doc0, x < tc.tcId := by
      by_cases hjc : j < tblc.rows.length
      · intro x hx
        obtain ⟨rowc, hrowc⟩ : ∃ r, tblc.rows.get? j = some r := ⟨_, List.get?_eq_get hjc⟩
        have htr2 : targetRow = rowc := by
          have hpj := hpre2 j hjc
          rw [htr, hrowc] at hpj
          exact Option.some_inj.mp hpj
        exact hd j rowc (by omega) hrowc tc (htr2 ▸ htc) x hx
      · intro x hx
        exact hfresh2 j targetRow (by omega) htr tc htc x (h2 x hx)
    exact absurd (hfr tc.tcId hxdoc0) (lt_irrefl _)

/-- A table item with non-negative indices whose row passed the
validator's header check preserves the invariant. -/
theorem execTableFill_headerInv (doc0 : Doc) (hdisj : headerDisjoint doc0 = true)
    (doc : Doc) (hinv : headerInv doc0 doc)
    (tidx rowOpt : Option Int) (fills : List FillEntry)
    (ht0 : 0 ≤ tidx.getD 0) (hr0 : ∀ r, rowOpt = some r → 0 ≤ r)
    (hnothdr : ∀ rw2, rowOpt = some rw2 →
      (((headerRowsByTable (extract_docx_structure doc0).tables (tidx.getD 0)).getD []).any
        (fun hh => (hh : Int) == rw2)) = false)
    (res : Doc × Nat × Nat)
    (hok : _execute_table_fill doc tidx rowOpt fills = .ok res) :
    headerInv doc0 res.1 := by
  unfold _execute_table_fill at hok
  by_cases hguard : tidx.getD 0 ≥ (doc.tables.length : Int) ∨ rowOpt = none
  · rw [if_pos hguard] at hok
    cases hok
    exact hinv
  · rw [if_neg hguard] at hok
    rw [not_or] at hguard
    obtain ⟨hA, hB⟩ := hguard
    have hlt2 : tidx.getD 0 < (doc.tables.length : Int) := lt_of_not_ge hA
    cases rowOpt with
    | none => exact absurd rfl hB
    | some row_idx =>
      dsimp only at hok
      have hr := hr0 row_idx rfl
      rw [pyIdx_nonneg _ _ ht0 hlt2] at hok
      dsimp only at hok
      have htlt : (tidx.getD 0).toNat < doc.tables.length := by omega
      have htbl := List.get?_eq_get htlt
      by_cases hnil : (doc.tables.get ⟨(tidx.getD 0).toNat, htlt⟩).rows = []
      · rw [show MAX_ADD_ROWS = 19 + 1 from rfl,
          addRowsLoop_empty_error doc _ row_idx 19 _ htbl hnil hr] at hok
        cases hok
      · obtain ⟨doc2, tbl2, hloop, hget2, hne2, hlen2, hpre2, happ2, hlastuq2,
          hpar2, htlen2, hoth2, hfresh2, hsub2⟩ :=
          addRowsLoop_spec ((tidx.getD 0).toNat) row_idx MAX_ADD_ROWS doc _ htbl hnil
        have hlen2le : (doc.tables.get ⟨(tidx.getD 0).toNat, htlt⟩).rows.length ≤
            tbl2.rows.length := by
          rw [hlen2]
          split
          · exact le_refl _
          · omega
        have hinv2 : headerInv doc0 doc2 :=
          addRows_headerInv doc0 doc _ _ htbl hinv doc2 tbl2 hget2 hlen2le
            hpre2 htlen2 hoth2 hfresh2 hsub2
        rw [hloop] at hok
        dsimp only at hok
        rw [hget2] at hok
        dsimp only at hok
        by_cases hrow2 : row_idx ≥ (tbl2.rows.length : Int)
        · rw [if_pos hrow2] at hok
          cases hok
          exact hinv2
        · rw [if_neg hrow2] at hok
          have hrlt : row_idx.toNat < tbl2.rows.length := by omega
          have hpg : pyGet tbl2.rows row_idx = tbl2.rows.get? row_idx.toNat := by
            unfold pyGet
            rw [pyIdx_nonneg _ _ hr (by omega)]
          rw [hpg, List.get?_eq_get hrlt] at hok
          dsimp only at hok
          cases hok
          apply execFills_headerInv doc0 doc2 _ fills hinv2
          intro p hp
          have hmem : p.2 ∈ tbl2.rows.get ⟨row_idx.toNat, hrlt⟩ := unique_cells_mem _ p hp
          have htr : tbl2.rows.get? row_idx.toNat =
              some (tbl2.rows.get ⟨row_idx.toNat, hrlt⟩) := List.get?_eq_get hrlt
          have ht0lt : (tidx.getD 0).toNat < doc0.tables.length := by
            obtain ⟨h1, -, -⟩ := hinv
            omega
          obtain ⟨tbl0, h0⟩ : ∃ tbl0,
              doc0.tables.get? (tidx.getD 0).toNat = some tbl0 :=
            ⟨_, List.get?_eq_get ht0lt⟩
          have hanyf := hnothdr row_idx rfl
          rw [show tidx.getD 0 = (((tidx.getD 0).toNat : Nat) : Int) from
            (Int.toNat_of_nonneg ht0).symm] at hanyf
          rw [headerRowsByTable_extract doc0 _ tbl0 h0] at hanyf
          rw [Option.getD_some] at hanyf
          rw [← headerIdxs_eq doc0 _ tbl0 h0] at hanyf
          have hjhdr : row_idx.toNat ∉ headerIdxs doc0 (tidx.getD 0).toNat := by
            intro hjin
            rw [List.any_eq_false] at hanyf
            apply hanyf _ hjin
            rw [beq_iff_eq]
            exact Int.toNat_of_nonneg hr
          exact target_row_safe doc0 doc hdisj hinv _ _ tbl2 row_idx.toNat htbl
            hpre2 hfresh2 hjhdr _ htr p.2 hmem

/-- The item loop preserves the invariant on every validated plan with
non-negative indices. -/
theorem execItems_headerInv (doc0 : Doc) (hdisj : headerDisjoint doc0 = true) :
    ∀ (items : List FillItem) (doc : Doc), headerInv doc0 doc →
      (∀ item ∈ items, itemIdxNonneg item = true) →
      (∀ item ∈ items, ∀ tidx rowOpt fills, item = .tableFill tidx rowOpt fills →
        ∀ rw2, rowOpt = some rw2 →
          (((headerRowsByTable (extract_docx_structure doc0).tables (tidx.getD 0)).getD
            []).any (fun hh => (hh : Int) == rw2)) = false) →
      ∀ res, execItems doc items = .ok res → headerInv doc0 res.1 := by
  intro items
  induction items with
  | nil =>
    intro doc hinv _ _ res hok
    cases hok
    exact hinv
  | cons item rest ih =>
    intro doc hinv hnn hhdr res hok
    dsimp only [execItems] at hok
    cases hitem : execItem doc item with
    | error e => rw [hitem] at hok; cases hok
    | ok r =>
      rw [hitem] at hok
      dsimp only at hok
      cases hrest : execItems r.1 rest with
      | error e => rw [hrest] at hok; cases hok
      | ok res2 =>
        rw [hrest] at hok
        dsimp only at hok
        cases hok
        have hinvr : headerInv doc0 r.1 := by
          cases item with
          | tableFill tidx rowOpt fills =>
            have hnn1 := hnn _ (List.mem_cons_self _ _)
            have ht0 : 0 ≤ tidx.getD 0 := by
              cases rowOpt with
              | none =>
                simp only [itemIdxNonneg, Bool.and_true, decide_eq_true_eq] at hnn1
                exact hnn1
              | some r0 =>
                simp only [itemIdxNonneg, Bool.and_eq_true, decide_eq_true_eq] at hnn1
                exact hnn1.1
            have hr0 : ∀ r0, rowOpt = some r0 → 0 ≤ r0 := by
              intro r0 hr0eq
              subst hr0eq
              simp only [itemIdxNonneg, Bool.and_eq_true, decide_eq_true_eq] at hnn1
              exact hnn1.2
            unfold execItem at hitem
            exact execTableFill_headerInv doc0 hdisj doc hinv tidx rowOpt fills ht0 hr0
              (hhdr _ (List.mem_cons_self _ _) tidx rowOpt fills rfl) r hitem
          | paragraphFill a p q v =>
            unfold execItem at hitem
            dsimp only at hitem
            cases hpf : _execute_paragraph_fill doc a p q v with
            | error e => rw [hpf] at hitem; cases hitem
            | ok doc2 =>
              rw [hpf] at hitem
              dsimp only at hitem
              cases hitem
              exact headerInv_tables_eq doc0 doc doc2
                (para_fill_tables_eq doc a p q v doc2 hpf) hinv
          | otherTarget =>
            cases hitem
            exact hinv
        exact ih r.1 hinvr (fun it hit => hnn it (List.mem_cons_of_mem _ hit))
          (fun it hit => hhdr it (List.mem_cons_of_mem _ hit)) res2 hrest

/-- C1, amended: (a) whenever validation completes with error list
`errs`, a table item with a non-negative in-range `table_idx` naming
table `t` and a `row` equal to one of that table's extracted header
rows contributes a header-protection error to `errs`; (b) when
validation reports no error, every index of the plan is non-negative,
and no merged cell spans a header and a non-header row, execution
leaves every extracted header row untouched.  (Unrestricted the claim
is false: a validated item with `table_idx = -1` and `row = 0`
silently rewrites a header cell, see the counterexample.) -/
theorem c1_header_immutability (doc : Doc) (plan : FillPlan) (errs : List VError)
    (hval : validate_fill_plan (extract_docx_structure doc) plan = .ok errs) :
    (∀ k tidx rowOpt fills t j,
      plan.fill_plan.get? k = some (.tableFill tidx rowOpt fills) →
      t < doc.tables.length → tidx.getD 0 = ((t : Nat) : Int) →
      j ∈ headerIdxs doc t → rowOpt = some ((j : Nat) : Int) →
      VError.headerRowProtected k ((j : Nat) : Int) ∈ errs) ∧
    (errs = [] → planIdxNonneg plan = true → headerDisjoint doc = true →
      ∀ res, execute_fill_plan doc plan = .ok res →
      ∀ t j, j ∈ headerIdxs doc t →
        (res.1.tables.get? t).bind (fun tbl => tbl.rows.get? j) =
        (doc.tables.get? t).bind (fun tbl => tbl.rows.get? j)) := by
  unfold validate_fill_plan at hval
  constructor
  · intro k tidx rowOpt fills t j hk htlt htidx hj hrow
    obtain ⟨tbl, htbl⟩ : ∃ tbl, doc.tables.get? t = some tbl := ⟨_, List.get?_eq_get htlt⟩
    have hlt : ¬(tidx.getD 0 ≥
        (((extract_docx_structure doc).tables.length : Nat) : Int)) := by
      rw [htidx, extract_tables_length]
      simp only [not_le]
      exact_mod_cast htlt
    have hany : (((headerRowsByTable (extract_docx_structure doc).tables
        (tidx.getD 0)).getD []).any (fun hh => (hh : Int) == ((j : Nat) : Int))) = true := by
      rw [htidx, headerRowsByTable_extract doc t tbl htbl, Option.getD_some]
      rw [List.any_eq_true]
      refine ⟨j, ?_, by rw [beq_iff_eq]⟩
      rw [headerIdxs_eq doc t tbl htbl] at hj
      exact hj
    have hm := validateItems_header_mem (extract_docx_structure doc).tables
      (extract_docx_structure doc).paragraphs plan.fill_plan 0 [] errs hval
      k tidx rowOpt fills hk ((j : Nat) : Int) hrow hlt hany
    simpa using hm
  · intro hnil hplannn hdisj res hok t j hj
    subst hnil
    unfold execute_fill_plan at hok
    have hfacts := validateItems_nil_facts (extract_docx_structure doc).tables
      (extract_docx_structure doc).paragraphs plan.fill_plan 0 [] hval
    have hnn : ∀ item ∈ plan.fill_plan, itemIdxNonneg item = true := by
      unfold planIdxNonneg at hplannn
      rw [List.all_eq_true] at hplannn
      exact hplannn
    have hhdr : ∀ item ∈ plan.fill_plan, ∀ tidx rowOpt fills,
        item = FillItem.tableFill tidx rowOpt fills → ∀ rw2, rowOpt = some rw2 →
        (((headerRowsByTable (extract_docx_structure doc).tables (tidx.getD 0)).getD
          []).any (fun hh => (hh : Int) == rw2)) = false := by
      intro item hmem tidx rowOpt fills hitem rw2 hrw
      exact (hfacts item hmem tidx rowOpt fills hitem).2 rw2 hrw
    have hinvf : headerInv doc res.1 :=
      execItems_headerInv doc hdisj plan.fill_plan doc (headerInv_refl doc) hnn hhdr res hok
    obtain ⟨h1, h2, h3⟩ := hinvf
    cases htbl : doc.tables.get? t with
    | none =>
      have hrn : res.1.tables.get? t = none := by
        rw [List.get?_eq_none, h1, ← List.get?_eq_none]
        exact htbl
      rw [hrn]
    | some tbl0 =>
      have htltr : t < res.1.tables.length := by
        have hx : t < doc.tables.length := by
          by_contra hcx
          rw [List.get?_eq_none.mpr (by omega)] at htbl
          cases htbl
        omega
      obtain ⟨tblr, htblr⟩ : ∃ x, res.1.tables.get? t = some x := ⟨_, List.get?_eq_get htltr⟩
      obtain ⟨-, -, hc, -⟩ := h3 t tbl0 tblr htbl htblr
      rw [htblr]
      simp only [Option.some_bind]
      exact hc j hj

/-- A validated plan that rewrites a header cell: `table_idx = -1`
resolves to the only table Python-negatively, `row = 0` is that table's
extracted header row, yet validation returns no error (the header map
has no key `-1`) and execution overwrites the header text `기간`. -/
theorem c1_counterexample :
    validate_fill_plan (extract_docx_structure exDoc)
      { fill_plan := [.tableFill (some (-1)) (some 0) [⟨some 0, some "X"⟩]] } = .ok [] ∧
    headerIdxs exDoc 0 = [0] ∧
    (execute_fill_plan exDoc
      { fill_plan := [.tableFill (some (-1)) (some 0) [⟨some 0, some "X"⟩]] }).toOption.map
      (fun r => ((r.1.tables.get? 0).bind (fun tbl => tbl.rows.get? 0)).map
        (List.map (fun tc => tc.paras))) =
      some (some [[["X"]], [["회사"]], [["직책"]]]) ∧
    ((exDoc.tables.get? 0).bind (fun tbl => tbl.rows.get? 0)).map
      (List.map (fun tc => tc.paras)) = some [[["기간"]], [["회사"]], [["직책"]]] :=
  ⟨rfl, rfl, by decide, by decide⟩

/-- Witness for `c1_header_immutability`: on the example document, a
header-targeting item (`table_idx = 0`, `row = 0`) yields the
protection error, and a validated data-row fill (`row = 1`) leaves the
header row untouched. -/
theorem c1_header_immutability_witness :
    (VError.headerRowProtected 0 (((0 : Nat) : Int)) ∈ [VError.headerRowProtected 0 0]) ∧
    ((((execute_fill_plan exDoc
        { fill_plan := [.tableFill (some 0) (some 1) [⟨some 0, some "v"⟩]] }).toOption.getD
        (exDoc, 0, 0)).1.tables.get? 0).bind (fun tbl => tbl.rows.get? 0) =
      (exDoc.tables.get? 0).bind (fun tbl => tbl.rows.get? 0)) :=
  ⟨(c1_header_immutability exDoc
      { fill_plan := [.tableFill (some 0) (some 0) [⟨some 0, some "X"⟩]] }
      [VError.headerRowProtected 0 0] rfl).1
      0 (some 0) (some 0) [⟨some 0, some "X"⟩] 0 0 rfl (by decide) rfl (by decide) rfl,
   (c1_header_immutability exDoc
      { fill_plan := [.tableFill (some 0) (some 1) [⟨some 0, some "v"⟩]] } [] rfl).2
      rfl rfl rfl _ rfl 0 0 (by decide)⟩
